import Mathlib

/-!
gormx: query-condition compiler.

A shallow embedding of `gormx.go` and theorems about it.

Conventions of the embedding

* A Go `string` is its sequence of bytes, `List Nat` with every element below 256.
  `s[i]` is a byte, `rune(s[i])` is the code point with the same number, and
  `string(output)` for `output []rune` is the UTF-8 encoding of the runes.
* Go `int` is the 64-bit two's complement integer; results of arithmetic are
  reduced with `wrapInt`.
* The `*gorm.DB` collaborator is represented by the log of calls issued to it
  (`WrapDB.Db`); what the database answers is a parameter (`Database`).
* A run-time panic is an explicit `Panic` value.
* A `reflect.Value` is given by its kind: zero Value, pointer, unsafe pointer,
  struct with its fields, map with its entries, or any other value.
-/

namespace Gormx

/-! ## Strings -/

/-- Go strings as byte sequences. -/
abbrev GoString := List Nat

/-- Bytes of an ASCII string literal (one byte per character). -/
def lit (s : String) : GoString := s.toList.map Char.toNat

/-- Every byte of the string is an ASCII byte. -/
def IsAscii (s : GoString) : Prop := ∀ b ∈ s, b < 128

instance (s : GoString) : Decidable (IsAscii s) :=
  inferInstanceAs (Decidable (∀ b ∈ s, b < 128))

/-- The byte is an ASCII uppercase letter `A`..`Z`. -/
def isAsciiUpper (b : Nat) : Bool := decide (65 ≤ b ∧ b ≤ 90)

/-- The byte is an ASCII lowercase letter `a`..`z`. -/
def isAsciiLower (b : Nat) : Bool := decide (97 ≤ b ∧ b ≤ 122)

/-- The byte is an ASCII letter. -/
def isAsciiLetter (b : Nat) : Bool := isAsciiUpper b || isAsciiLower b

/-- Run-time panics the code can raise. -/
inductive Panic
  | indexOutOfRange
  | typeAssertion
  | reflectKind
  /-- Source of the panic: `reflect.Value.Interface` on the zero Value. -/
  | zeroValue
  deriving DecidableEq, Repr

/-- Go `unicode.IsUpper` on the runes `rune(s[i])` can produce (U+0000..U+00FF):
the Latin-1 uppercase letters are `A`..`Z`, U+00C0..U+00D6 and U+00D8..U+00DE. -/
def unicode.IsUpper (r : Nat) : Bool :=
  decide ((65 ≤ r ∧ r ≤ 90) ∨ (192 ≤ r ∧ r ≤ 214) ∨ (216 ≤ r ∧ r ≤ 222))

/-- Go `unicode.ToLower` on U+0000..U+00FF: uppercase letters move up by 32. -/
def unicode.ToLower (r : Nat) : Nat :=
  if (65 ≤ r ∧ r ≤ 90) ∨ (192 ≤ r ∧ r ≤ 214) ∨ (216 ≤ r ∧ r ≤ 222) then r + 32 else r

/-- Go `unicode.ToUpper` on U+0000..U+00FF: lowercase letters move down by 32,
except U+00B5 (to U+039C) and U+00FF (to U+0178); U+00DF has no simple mapping. -/
def unicode.ToUpper (r : Nat) : Nat :=
  if (97 ≤ r ∧ r ≤ 122) ∨ (224 ≤ r ∧ r ≤ 246) ∨ (248 ≤ r ∧ r ≤ 254) then r - 32
  else if r = 181 then 924
  else if r = 255 then 376
  else r

/-- UTF-8 encoding of one rune (`utf8.AppendRune`); surrogates and values beyond
U+10FFFF are encoded as U+FFFD. -/
def utf8.EncodeRune (r : Nat) : List Nat :=
  if r < 128 then [r]
  else if r < 2048 then [192 + r / 64, 128 + r % 64]
  else if (55296 ≤ r ∧ r ≤ 57343) ∨ 1114111 < r then [239, 191, 189]
  else if r < 65536 then [224 + r / 4096, 128 + r / 64 % 64, 128 + r % 64]
  else [240 + r / 262144, 128 + r / 4096 % 64, 128 + r / 64 % 64, 128 + r % 64]

/-- The conversion `string(output)` of a rune slice. -/
def runesToString (output : List Nat) : GoString := output.flatMap utf8.EncodeRune

/-- Go `strings.HasPrefix`. -/
def strings.HasPrefix (s pfx : GoString) : Bool := pfx.isPrefixOf s

/-- Go `strings.Index`: the index of the first occurrence of `substr` in `s`,
or `-1` when there is none; `i` is the number of bytes already passed. -/
def strings.Index.go (substr : GoString) : GoString → Nat → Int
  | [], i => if substr = [] then (i : Int) else -1
  | b :: rest, i =>
    if substr.isPrefixOf (b :: rest) then (i : Int) else strings.Index.go substr rest (i + 1)

/-- Go `strings.Index`. -/
def strings.Index (s substr : GoString) : Int := strings.Index.go substr s 0

/-! ## Name converter (gormx.go lines 150-177) -/

/-- The `for` loop of `camelCaseToUnderscore`, over the bytes `s[1:]` still to visit. -/
def camelCaseToUnderscore.loop (output : List Nat) : List Nat → List Nat
  | [] => output
  | b :: rest =>
    let output := if unicode.IsUpper b then output ++ [95] else output
    camelCaseToUnderscore.loop (output ++ [unicode.ToLower b]) rest

/-- Source `camelCaseToUnderscore`: `s[0]` on the empty string is an index panic. -/
def camelCaseToUnderscore (s : GoString) : Except Panic GoString :=
  match s with
  | [] => .error Panic.indexOutOfRange
  | b :: rest => .ok (runesToString (camelCaseToUnderscore.loop [unicode.ToLower b] rest))

/-- The `for` loop of `underscoreToUpperCamelCase`, with the flag `f`. -/
def underscoreToUpperCamelCase.loop (output : List Nat) (f : Bool) : List Nat → List Nat
  | [] => output
  | b :: rest =>
    if b = 95 then underscoreToUpperCamelCase.loop output true rest
    else if f then underscoreToUpperCamelCase.loop (output ++ [unicode.ToUpper b]) false rest
    else underscoreToUpperCamelCase.loop (output ++ [b]) false rest

/-- Source `underscoreToUpperCamelCase`. -/
def underscoreToUpperCamelCase (s : GoString) : GoString :=
  runesToString (underscoreToUpperCamelCase.loop [] false s)

/-! ## Field guard (gormx.go line 15) -/

/-- The character class `[^a-zA-Z_]` of `isInjectionReg`. The regexp engine reads
runes; a byte of 128 or more always belongs to a rune of 128 or more (or to
U+FFFD), which is in the class, so the class is evaluated byte by byte. -/
def isInjectionReg.inClass (b : Nat) : Bool :=
  !(decide (97 ≤ b ∧ b ≤ 122) || decide (65 ≤ b ∧ b ≤ 90) || decide (b = 95))

/-- The pattern `[^a-zA-Z_]+` matched at the start of the input: one class
character, followed by any number of further ones. -/
def isInjectionReg.matchHere : GoString → Bool
  | [] => false
  | b :: _ => isInjectionReg.inClass b

/-- Source `isInjectionReg.MatchString`: the unanchored search tries every start. -/
def isInjectionReg.MatchString : GoString → Bool
  | [] => false
  | b :: rest => isInjectionReg.matchHere (b :: rest) || isInjectionReg.MatchString rest

/-! ## Values and machine integers -/

/-- Least value of Go `int` on a 64-bit target. -/
def minInt : Int := -9223372036854775808

/-- Greatest value of Go `int` on a 64-bit target. -/
def maxInt : Int := 9223372036854775807

/-- Two's complement reduction of an integer to the range of Go `int`. -/
def wrapInt (x : Int) : Int := (x + 9223372036854775808) % 18446744073709551616 - 9223372036854775808

/-- The conversion `int(f)` of a finite `float64` (a rational): truncation toward
zero; a value out of range gives `minInt`, as on amd64 (the language leaves that
case to the implementation). -/
def floatToInt (q : Rat) : Int :=
  let t := Int.tdiv q.num (q.den : Int)
  if minInt ≤ t ∧ t ≤ maxInt then t else minInt

/-- The dynamic values (`interface{}`) the code inspects. -/
inductive GoValue
  /-- The nil interface. -/
  | nil
  /-- A signed integer kind (`reflect.Value.CanInt`); `n` is an `int64`. -/
  | int (n : Int)
  /-- An unsigned integer kind (`reflect.Value.CanUint`); `n` is a `uint64`. -/
  | uint (n : Nat)
  /-- A finite floating-point value (`reflect.Value.CanFloat`). -/
  | float (q : Rat)
  /-- A `string`. -/
  | str (s : GoString)
  /-- A `[]string`; `none` is the nil slice. -/
  | strings (l : Option (List GoString))
  /-- A value of any other kind. -/
  | other (tag : Nat)
  deriving DecidableEq

/-- A `map[string]interface{}`, as its entries in iteration order. -/
abbrev GoMap := List (GoString × GoValue)

/-- Map index expression `m[key]`: the nil interface when the key is absent. -/
def GoMap.index (m : GoMap) (key : GoString) : GoValue :=
  match m.find? (fun e => decide (e.1 = key)) with
  | some e => e.2
  | none => GoValue.nil

/-- Map assignment `m[key] = v`. -/
def GoMap.set (m : GoMap) (key : GoString) (v : GoValue) : GoMap :=
  if m.any (fun e => decide (e.1 = key)) then
    m.map (fun e => if e.1 = key then (key, v) else e)
  else m ++ [(key, v)]

/-! ## The database collaborator -/

/-- Calls issued to `*gorm.DB`. -/
inductive DbCall
  | Where (query : GoString) (arg : GoValue)
  | Order (value : GoString)
  | Limit (limit : Int)
  | Offset (offset : Int)
  | Count
  | Scan
  | Select (query : GoString)
  deriving DecidableEq

/-- Errors returned by the calls. -/
inductive GoError
  /-- An error reported by the database. -/
  | db (code : Nat)
  /-- Source `fmt.Errorf("Ilegal sumField: %s ", sumField)`. -/
  | illegalSumField (sumField : GoString)
  /-- Source `fmt.Errorf("[SUM] Unknow: %s , only pointer allowed", sum)`. -/
  | sumUnknown
  deriving DecidableEq

/-- What the database answers to the three finisher calls, given the calls
issued before. -/
structure Database where
  /-- Answer of `Count(&gr.Total)`. -/
  count : List DbCall → Except GoError Int
  /-- Rows appended by `Scan(&gr.List)`. -/
  scanList : List DbCall → Except GoError (List GoMap)
  /-- Entries stored by `Select(..).Scan(gr.Sum)`. -/
  scanSum : List DbCall → Except GoError GoMap

/-- Source `SumFieldsKey`. -/
def SumFieldsKey : GoString := lit "#sum"

/-- Source `GeneralResult`; a nil slice is `none`. -/
structure GeneralResult where
  Total : Int
  List : Option (List GoMap)
  Sum : GoMap
  deriving DecidableEq

/-- Source `WrapDB`; `Db` is the log of the calls issued so far. -/
structure WrapDB where
  Db : List DbCall
  maxPagesize : Int
  allowEmptyString : Int
  page : Option Int
  pagesize : Option Int
  orderKey : Option GoString
  desc : Option Bool
  deriving DecidableEq

/-- Source `NewWrapDB`. -/
def NewWrapDB (maxPagesize allowEmptyString : Int) : WrapDB :=
  { Db := [], maxPagesize := maxPagesize, allowEmptyString := allowEmptyString,
    page := none, pagesize := none, orderKey := none, desc := none }

/-- Issue one call to the collaborator. -/
def WrapDB.call (w : WrapDB) (c : DbCall) : WrapDB := { w with Db := w.Db ++ [c] }

/-! ## Ordering and paging (gormx.go lines 179-202) -/

/-- Source `WrapDB.tryOrder`. -/
def WrapDB.tryOrder (w : WrapDB) : WrapDB :=
  match w.orderKey with
  | none => w
  | some orderKey =>
    if orderKey ≠ [] ∧ isInjectionReg.MatchString orderKey = false then
      let orderKey := if w.desc = some true then orderKey ++ lit " desc" else orderKey
      w.call (DbCall.Order orderKey)
    else w

/-- Source `WrapDB.tryPage`. -/
def WrapDB.tryPage (w : WrapDB) : WrapDB :=
  let w : WrapDB :=
    match w.pagesize with
    | none => { w with pagesize := some w.maxPagesize }
    | some pagesize =>
      if pagesize > w.maxPagesize then { w with pagesize := some w.maxPagesize } else w
  let pagesize : Int := w.pagesize.getD w.maxPagesize
  let w : WrapDB := if pagesize > 0 then w.call (DbCall.Limit pagesize) else w
  match w.page with
  | some page => w.call (DbCall.Offset (wrapInt (pagesize * wrapInt (page - 1))))
  | none => w

/-- The page size `tryPage` works with after its first statement: the configured
maximum when no size was requested or the requested one exceeds it. -/
def WrapDB.effectivePagesize (w : WrapDB) : Int :=
  match w.pagesize with
  | none => w.maxPagesize
  | some s => if s > w.maxPagesize then w.maxPagesize else s

/-! ## Predicate compiler (gormx.go lines 204-286) -/

/-- The numeric coercion of `doWhere`: `CanFloat`, then `CanInt`, else `Uint()`,
which panics on every other kind. -/
def reflectInt (val : GoValue) : Except Panic Int :=
  match val with
  | GoValue.float q => .ok (floatToInt q)
  | GoValue.int n => .ok (wrapInt n)
  | GoValue.uint n => .ok (wrapInt (n : Int))
  | _ => .error Panic.reflectKind

/-- The `default` case of the key switch of `doWhere`. -/
def WrapDB.doWhereDefault (w : WrapDB) (key : GoString) (val : GoValue) : WrapDB :=
  let index := strings.Index key (lit "_")
  if index ≠ -1 then
    let pfx := key.take index.toNat
    let index := index + 1
    if pfx = lit "neq" then
      w.call (DbCall.Where (lit "`" ++ key.drop index.toNat ++ lit "` <> ?") val)
    else if pfx = lit "gt" then
      w.call (DbCall.Where (lit "`" ++ key.drop index.toNat ++ lit "` > ?") val)
    else if pfx = lit "gte" then
      w.call (DbCall.Where (lit "`" ++ key.drop index.toNat ++ lit "` >= ?") val)
    else if pfx = lit "lt" then
      w.call (DbCall.Where (lit "`" ++ key.drop index.toNat ++ lit "` < ?") val)
    else if pfx = lit "lte" then
      w.call (DbCall.Where (lit "`" ++ key.drop index.toNat ++ lit "` <= ?") val)
    else if pfx = lit "in" then
      w.call (DbCall.Where (lit "`" ++ key.drop index.toNat ++ lit "` in ?") val)
    else if pfx = lit "nin" then
      w.call (DbCall.Where (lit "`" ++ key.drop index.toNat ++ lit "` not in ?") val)
    else if pfx = lit "like" then
      w.call (DbCall.Where (lit "`" ++ key.drop index.toNat ++ lit "` like ?") val)
    else if pfx = lit "nlike" then
      w.call (DbCall.Where (lit "`" ++ key.drop index.toNat ++ lit "` not like ?") val)
    else if pfx = lit "eq" then
      w.call (DbCall.Where (lit "`" ++ key.drop index.toNat ++ lit "` = ?") val)
    else
      w.call (DbCall.Where (lit "`" ++ key ++ lit "` = ?") val)
  else
    w.call (DbCall.Where (lit "`" ++ key ++ lit "` = ?") val)

/-- Source `WrapDB.doWhere`. -/
def WrapDB.doWhere (w : WrapDB) (key : GoString) (val : GoValue) : Except Panic WrapDB :=
  if key.length = 0 ∨ strings.HasPrefix key (lit "#") = true then .ok w
  else if w.allowEmptyString < 1 ∧ val = GoValue.str [] then .ok w
  else
    match camelCaseToUnderscore key with
    | .error p => .error p
    | .ok key =>
      if key = lit "page" then
        match reflectInt val with
        | .error p => .error p
        | .ok page => .ok { w with page := some page }
      else if key = lit "pagesize" ∨ key = lit "page_size" then
        match reflectInt val with
        | .error p => .error p
        | .ok pagesize => .ok { w with pagesize := some pagesize }
      else if key = lit "orderkey" ∨ key = lit "order_key" then
        match val with
        | GoValue.str s =>
          match camelCaseToUnderscore s with
          | .error p => .error p
          | .ok value =>
            if strings.HasPrefix value (lit "desc_") = true then
              .ok { w with orderKey := some (value.drop 5), desc := some true }
            else
              let n := if strings.HasPrefix value (lit "asc_") = true then value.drop 4 else value
              .ok { w with orderKey := some n }
        | _ => .error Panic.typeAssertion
      else .ok (w.doWhereDefault key val)

/-! ## Map-mode query (gormx.go lines 44-95) -/

/-- How a call of `QueryWithMap` ends. -/
inductive Outcome
  /-- The function returned `(gr, err)`; `err = none` is the nil error. -/
  | returned (gr : GeneralResult) (err : Option GoError)
  /-- The function panicked. -/
  | panicked (p : Panic)
  deriving DecidableEq

/-- The loop `for key, val := range search { w.doWhere(key, val) }`; `search` is
given in iteration order. The state returned with a panic is the one reached
before the panicking call. -/
def WrapDB.doWhereAll (w : WrapDB) : GoMap → WrapDB × Option Panic
  | [] => (w, none)
  | (key, val) :: rest =>
    match w.doWhere key val with
    | .ok w1 => WrapDB.doWhereAll w1 rest
    | .error p => (w, some p)

/-- The result projector of `QueryWithMap` for one row: a fresh map filled with
`nm[underscoreToUpperCamelCase(k)] = v`. -/
def projectRow (m : GoMap) : GoMap :=
  m.foldl (fun nm e => GoMap.set nm (underscoreToUpperCamelCase e.1) e.2) []

/-- How the loop over `_sumFields` ends. -/
inductive SumFieldsResult
  | fields (sumFields : List GoString)
  | illegal (sumField : GoString)
  | panicked (p : Panic)
  deriving DecidableEq

/-- The loop `for _, sumField := range _sumFields` of `QueryWithMap`. -/
def collectSumFields (sumFields : List GoString) : List GoString → SumFieldsResult
  | [] => SumFieldsResult.fields sumFields
  | sumField :: rest =>
    if isInjectionReg.MatchString sumField = true then SumFieldsResult.illegal sumField
    else
      match camelCaseToUnderscore sumField with
      | .error p => SumFieldsResult.panicked p
      | .ok name => collectSumFields (sumFields ++ [name]) rest

/-- The text written to the `strings.Builder` for the sum fields. -/
def sumSelectText (sumFields : List GoString) : GoString :=
  sumFields.foldl
    (fun sb field => sb ++ (lit "sum(`" ++ field ++ lit "`) as `" ++ field ++ lit "`, ")) []

/-- The sum phase of `QueryWithMap` (the body of `if w.page != nil && *w.page == 1`). -/
def WrapDB.sumPhase (w : WrapDB) (db : Database) (search : GoMap) (gr : GeneralResult) :
    WrapDB × Outcome :=
  let collected : SumFieldsResult :=
    match GoMap.index search SumFieldsKey with
    | GoValue.strings none => SumFieldsResult.fields []
    | GoValue.strings (some l) => collectSumFields [] l
    | _ => SumFieldsResult.panicked Panic.typeAssertion
  match collected with
  | SumFieldsResult.panicked p => (w, Outcome.panicked p)
  | SumFieldsResult.illegal sumField =>
    (w, Outcome.returned gr (some (GoError.illegalSumField sumField)))
  | SumFieldsResult.fields sumFields =>
    if sumFields.length > 0 then
      let sb := sumSelectText sumFields
      if sb.length > 16 then
        let w := (w.call (DbCall.Select (sb.take (sb.length - 2)))).call DbCall.Scan
        match db.scanSum w.Db with
        | .error e => (w, Outcome.returned gr (some e))
        | .ok sum => (w, Outcome.returned { gr with Sum := sum } none)
      else (w, Outcome.returned gr none)
    else (w, Outcome.returned gr none)

/-- Source `WrapDB.QueryWithMap`: the final state (with the log of calls) and the outcome. -/
def WrapDB.QueryWithMap (w : WrapDB) (db : Database) (search : GoMap) : WrapDB × Outcome :=
  let gr : GeneralResult := { Total := 0, List := some [], Sum := [] }
  match w.doWhereAll search with
  | (w, some p) => (w, Outcome.panicked p)
  | (w, none) =>
    let w := w.call DbCall.Count
    match db.count w.Db with
    | .error e => (w, Outcome.returned gr (some e))
    | .ok total =>
      let gr := { gr with Total := total }
      if total > 0 then
        let w := (w.tryOrder.tryPage).call DbCall.Scan
        match db.scanList w.Db with
        | .error e => (w, Outcome.returned gr (some e))
        | .ok rows =>
          let gr := { gr with List := some rows }
          let gr := if rows.length > 0 then { gr with List := some (rows.map projectRow) } else gr
          if w.page = some 1 then w.sumPhase db search gr
          else (w, Outcome.returned gr none)
      else (w, Outcome.returned gr none)

/-! ## Structure walker (gormx.go lines 288-319) -/

/-- A `reflect.Value` as the walker inspects it, by `Kind`. Struct fields are
exported; map entries are in the order of `MapKeys`. -/
inductive reflect.Value
  /-- The zero Value (`Kind` is `Invalid`). -/
  | Invalid
  /-- Kind `Pointer`; `none` is the nil pointer. -/
  | Pointer (elem : Option reflect.Value)
  /-- Kind `UnsafePointer`. -/
  | UnsafePointer (isNil : Bool)
  /-- Kind `Struct`, with the field names and values in declaration order. -/
  | Struct (fields : List (GoString × reflect.Value))
  /-- Kind `Map`; `keyIsString` tells whether the key kind is `String`. -/
  | Map (keyIsString : Bool) (entries : GoMap)
  /-- Any other kind; `Interface()` returns `v`. -/
  | Other (v : GoValue)

/-- State and panic of a call of `doWhere` that returns normally or panics. -/
def WrapDB.ofExcept (w : WrapDB) (r : Except Panic WrapDB) : WrapDB × Option Panic :=
  match r with
  | .ok w1 => (w1, none)
  | .error p => (w, some p)

mutual
/-- Source `WrapDB.doDeepWhere`: the state reached and the panic, if any. `Elem()`
of a nil pointer is the zero Value, `Elem()` of an unsafe pointer panics, and
`Interface()` of the zero Value panics. -/
def WrapDB.doDeepWhere (w : WrapDB) (k : GoString) (v : reflect.Value) :
    WrapDB × Option Panic :=
  match v with
  | reflect.Value.Pointer none => (w, none)
  | reflect.Value.Pointer (some e) => WrapDB.doDeepWhere w k e
  | reflect.Value.UnsafePointer true => (w, none)
  | reflect.Value.UnsafePointer false => (w, some Panic.reflectKind)
  | reflect.Value.Struct fields => WrapDB.doDeepWhereFields w fields
  | reflect.Value.Map keyIsString entries =>
    if entries.length > 0 ∧ keyIsString = true then w.doWhereAll entries else (w, none)
  | reflect.Value.Invalid => (w, some Panic.zeroValue)
  | reflect.Value.Other i => w.ofExcept (w.doWhere k i)
/-- The loop `for i := 0; i < n; i++` over the fields of a struct in `doDeepWhere`. -/
def WrapDB.doDeepWhereFields (w : WrapDB) (fields : List (GoString × reflect.Value)) :
    WrapDB × Option Panic :=
  match fields with
  | [] => (w, none)
  | (ki, vi) :: rest =>
    let r : WrapDB × Option Panic :=
      match vi with
      | reflect.Value.Pointer none => WrapDB.doDeepWhere w ki reflect.Value.Invalid
      | reflect.Value.Pointer (some e) => WrapDB.doDeepWhere w ki e
      | reflect.Value.UnsafePointer _ => (w, some Panic.reflectKind)
      | reflect.Value.Struct fs => WrapDB.doDeepWhere w [] (reflect.Value.Struct fs)
      | reflect.Value.Map b es => WrapDB.doDeepWhere w [] (reflect.Value.Map b es)
      | reflect.Value.Invalid => (w, some Panic.zeroValue)
      | reflect.Value.Other i => w.ofExcept (w.doWhere ki i)
    match r with
    | (w1, none) => WrapDB.doDeepWhereFields w1 rest
    | (w1, some p) => (w1, some p)
end

/-! ## Struct-mode query (gormx.go lines 97-148) -/

/-- The caller-owned destinations and the error after `QueryWithStruct` returned. -/
structure StructResult where
  /-- The slice behind `list`: `none` when `list` is the nil interface, `some none`
  when the slice is nil. -/
  list : Option (Option (List GoMap))
  /-- What `Scan(sum)` stored, when it ran and succeeded. -/
  sum : Option GoMap
  /-- The value behind `total`; `none` when `total` is nil. -/
  total : Option Int
  /-- The returned error; `none` is the nil error. -/
  err : Option GoError
  deriving DecidableEq

/-- How a call of `QueryWithStruct` ends. -/
inductive StructOutcome
  | returned (r : StructResult)
  | panicked (p : Panic)
  deriving DecidableEq

/-- The loop over the fields of the sum structure: the text written to the
`strings.Builder`. -/
def structSumText (sb : GoString) : List (GoString × reflect.Value) → Except Panic GoString
  | [] => .ok sb
  | (name, _) :: rest =>
    match camelCaseToUnderscore name with
    | .error p => .error p
    | .ok ns => structSumText (sb ++ (lit "sum(`" ++ ns ++ lit "`) as `" ++ ns ++ lit "`, ")) rest

/-- The sum phase of `QueryWithStruct` (the body of
`if w.page != nil && *w.page == 1 && sum != nil`). The error of `Scan(sum)` is
not read. -/
def WrapDB.sumPhaseStruct (w : WrapDB) (db : Database) (sum : reflect.Value) (r : StructResult) :
    WrapDB × StructOutcome :=
  match sum with
  | reflect.Value.Pointer none => (w, StructOutcome.panicked Panic.zeroValue)
  | reflect.Value.UnsafePointer _ => (w, StructOutcome.panicked Panic.reflectKind)
  | reflect.Value.Pointer (some (reflect.Value.Struct fields)) =>
    if fields.length > 0 then
      match structSumText [] fields with
      | .error p => (w, StructOutcome.panicked p)
      | .ok sb =>
        if sb.length > 0 then
          let w := (w.call (DbCall.Select (sb.take (sb.length - 2)))).call DbCall.Scan
          match db.scanSum w.Db with
          | .error _ => (w, StructOutcome.returned r)
          | .ok s => (w, StructOutcome.returned { r with sum := some s })
        else (w, StructOutcome.returned r)
    else (w, StructOutcome.returned r)
  | reflect.Value.Pointer (some _) => (w, StructOutcome.returned r)
  | _ => (w, StructOutcome.returned { r with err := some GoError.sumUnknown })

/-- The first statement of `QueryWithStruct`:
`if search != nil { w.doDeepWhere("", reflect.ValueOf(search)) }`. -/
def WrapDB.walkSearch (w : WrapDB) (search : Option reflect.Value) : WrapDB × Option Panic :=
  match search with
  | some v => w.doDeepWhere [] v
  | none => (w, none)

/-- Source `WrapDB.QueryWithStruct`. `search` and `sum` are `none` for the nil
interface; `list` is `none` for the nil interface and otherwise the slice its
pointer refers to; `total` is `none` for the nil pointer and otherwise the value
it points to. -/
def WrapDB.QueryWithStruct (w : WrapDB) (db : Database) (search : Option reflect.Value)
    (list : Option (Option (List GoMap))) (sum : Option reflect.Value) (total : Option Int) :
    WrapDB × StructOutcome :=
  match w.walkSearch search with
  | (w, some p) => (w, StructOutcome.panicked p)
  | (w, none) =>
    let counted : WrapDB × Except GoError (Option Int) :=
      match total with
      | none => (w, .ok none)
      | some _ =>
        match db.count (w.call DbCall.Count).Db with
        | .error e => (w.call DbCall.Count, .error e)
        | .ok n => (w.call DbCall.Count, .ok (some n))
    match counted with
    | (w, .error e) =>
      (w, StructOutcome.returned { list := list, sum := none, total := total, err := some e })
    | (w, .ok total) =>
      let proceed : Bool :=
        match total with
        | none => true
        | some n => decide (n > 0)
      if proceed = true then
        let w := w.tryOrder.tryPage
        let scanned : WrapDB × Except GoError (Option (Option (List GoMap))) :=
          match list with
          | none => (w, .ok none)
          | some _ =>
            match db.scanList (w.call DbCall.Scan).Db with
            | .error e => (w.call DbCall.Scan, .error e)
            | .ok rows => (w.call DbCall.Scan, .ok (some (some rows)))
        match scanned with
        | (w, .error e) =>
          (w, StructOutcome.returned { list := list, sum := none, total := total, err := some e })
        | (w, .ok list) =>
          let r : StructResult := { list := list, sum := none, total := total, err := none }
          match sum with
          | some sv =>
            if w.page = some 1 then w.sumPhaseStruct db sv r
            else (w, StructOutcome.returned r)
          | none => (w, StructOutcome.returned r)
      else
        let list : Option (Option (List GoMap)) :=
          match list with
          | some none => some (some [])
          | l => l
        (w, StructOutcome.returned { list := list, sum := none, total := total, err := none })

/-! ## Sample databases -/

/-- A database that counts no row. -/
def emptyDatabase : Database :=
  { count := fun _ => .ok 0, scanList := fun _ => .ok [], scanSum := fun _ => .ok [] }

/-- A database with one matching row, whose only column is `age` with value 30. -/
def oneRowDatabase : Database :=
  { count := fun _ => .ok 1,
    scanList := fun _ => .ok [[(lit "age", GoValue.int 30)]],
    scanSum := fun _ => .ok [(lit "age", GoValue.int 30)] }

/-- A database with one matching row whose sum query fails with error code 7. -/
def failingSumDatabase : Database :=
  { count := fun _ => .ok 1,
    scanList := fun _ => .ok [[(lit "amount", GoValue.int 30)]],
    scanSum := fun _ => .error (GoError.db 7) }

/-- A database with one matching row, whose only column is `user_name`. -/
def userRowDatabase : Database :=
  { count := fun _ => .ok 1,
    scanList := fun _ => .ok [[(lit "user_name", GoValue.str (lit "ann"))]],
    scanSum := fun _ => .ok [] }

/-! ## Sample arguments -/

/-- The search argument `&struct{ Page int }{1}`. -/
def pageOneSearch : reflect.Value :=
  reflect.Value.Pointer (some (reflect.Value.Struct
    [(lit "Page", reflect.Value.Other (GoValue.int 1))]))

/-- The sum destination `&struct{ Amount int }{}`. -/
def amountSum : reflect.Value :=
  reflect.Value.Pointer (some (reflect.Value.Struct
    [(lit "Amount", reflect.Value.Other (GoValue.int 0))]))

/-- The sum destination `&struct{ Amount2 int }{}`. -/
def amount2Sum : reflect.Value :=
  reflect.Value.Pointer (some (reflect.Value.Struct
    [(lit "Amount2", reflect.Value.Other (GoValue.int 0))]))

/-! ## Reference definitions taken from the specification -/

/-- ASCII lower-casing of one character. -/
def asciiToLower (c : Nat) : Nat := if isAsciiUpper c = true then c + 32 else c

/-- ASCII upper-casing of one character. -/
def asciiToUpper (c : Nat) : Nat := if isAsciiLower c = true then c - 32 else c

/-- Specification of `toSnake`, in the words of the specification: the lower-cased
first character, then for every subsequent character an underscore if it is
uppercase, followed by the character lower-cased. -/
def toSnakeSpec : GoString → GoString
  | [] => []
  | c :: rest =>
    asciiToLower c ::
      rest.flatMap (fun d => if isAsciiUpper d = true then [95, asciiToLower d] else [asciiToLower d])

/-- Specification of `toUpperCamel`, in the words of the specification: every
character is paired with its predecessor; underscores are removed, a character
immediately preceded by an underscore is upper-cased, all others are kept. -/
def toUpperCamelSpec (s : GoString) : GoString :=
  (List.zip (none :: s.map some) s).filterMap
    (fun e => if e.2 = 95 then none
              else if e.1 = some 95 then some (asciiToUpper e.2) else some e.2)

/-- A word of a snake_case name: a non-empty string of lowercase ASCII letters. -/
def IsLowerWord (w : GoString) : Prop := w ≠ [] ∧ ∀ b ∈ w, isAsciiLower b = true

instance (w : GoString) : Decidable (IsLowerWord w) := by
  unfold IsLowerWord; infer_instance

/-- The snake_case name made of the given words, joined by single underscores. -/
def snakeJoin : List GoString → GoString
  | [] => []
  | w :: ws => w ++ ws.flatMap (fun v => 95 :: v)

/-- A word with its first letter upper-cased. -/
def capitalize : GoString → GoString
  | [] => []
  | c :: rest => asciiToUpper c :: rest

/-- Operator table of the specification (section 4.3, step 5): the operator token
before the first underscore and its SQL operator, keywords in the lower case the
code writes. -/
def specOperator (pfx : GoString) : Option GoString :=
  if pfx = lit "neq" then some (lit "<>")
  else if pfx = lit "gt" then some (lit ">")
  else if pfx = lit "gte" then some (lit ">=")
  else if pfx = lit "lt" then some (lit "<")
  else if pfx = lit "lte" then some (lit "<=")
  else if pfx = lit "in" then some (lit "in")
  else if pfx = lit "nin" then some (lit "not in")
  else if pfx = lit "like" then some (lit "like")
  else if pfx = lit "nlike" then some (lit "not like")
  else if pfx = lit "eq" then some (lit "=")
  else none

/-- The reserved directive names of the specification (section 3). -/
def IsDirective (k : GoString) : Prop :=
  k = lit "page" ∨ k = lit "pagesize" ∨ k = lit "page_size" ∨ k = lit "orderkey" ∨
    k = lit "order_key"

instance (k : GoString) : Decidable (IsDirective k) := by
  unfold IsDirective; infer_instance

/-! ## Lemmas on ASCII strings -/

theorem lit_underscore : lit "_" = [95] := rfl

theorem unicode_IsUpper_ascii {b : Nat} (h : b < 128) : unicode.IsUpper b = isAsciiUpper b := by
  simp only [unicode.IsUpper, isAsciiUpper, decide_eq_decide]
  omega

theorem unicode_ToLower_ascii {b : Nat} (h : b < 128) : unicode.ToLower b = asciiToLower b := by
  simp only [unicode.ToLower, asciiToLower, isAsciiUpper, decide_eq_true_eq]
  split_ifs <;> omega

theorem unicode_ToUpper_ascii {b : Nat} (h : b < 128) : unicode.ToUpper b = asciiToUpper b := by
  simp only [unicode.ToUpper, asciiToUpper, isAsciiLower, decide_eq_true_eq]
  split_ifs <;> omega

theorem asciiToLower_lt {b : Nat} (h : b < 128) : asciiToLower b < 128 := by
  simp only [asciiToLower, isAsciiUpper, decide_eq_true_eq]
  split_ifs <;> omega

theorem asciiToUpper_lt {b : Nat} (h : b < 128) : asciiToUpper b < 128 := by
  simp only [asciiToUpper, isAsciiLower, decide_eq_true_eq]
  split_ifs <;> omega

theorem isAsciiUpper_asciiToLower (b : Nat) : isAsciiUpper (asciiToLower b) = false := by
  simp only [asciiToLower, isAsciiUpper, decide_eq_true_eq, decide_eq_false_iff_not]
  split_ifs <;> omega

theorem runesToString_ascii {l : List Nat} (h : ∀ r ∈ l, r < 128) : runesToString l = l := by
  induction l with
  | nil => rfl
  | cons r l ih =>
    have hr : r < 128 := h r (List.mem_cons_self r l)
    have hl : runesToString l = l := ih (fun x hx => h x (List.mem_cons_of_mem r hx))
    simp only [runesToString, List.flatMap_cons] at hl ⊢
    rw [hl]
    simp [utf8.EncodeRune, hr]

/-- The loop of `camelCaseToUnderscore` appends, for every byte, an optional
underscore and the lower-cased byte. -/
theorem camelLoop_eq (output l : List Nat) :
    camelCaseToUnderscore.loop output l =
      output ++ l.flatMap
        (fun b => if unicode.IsUpper b = true then [95, unicode.ToLower b] else [unicode.ToLower b]) := by
  induction l generalizing output with
  | nil => simp [camelCaseToUnderscore.loop]
  | cons b l ih =>
    simp only [camelCaseToUnderscore.loop, List.flatMap_cons]
    rw [ih]
    by_cases hb : unicode.IsUpper b = true <;> simp [hb]

theorem flatMap_snake_ascii {l : List Nat} (h : ∀ b ∈ l, b < 128) :
    l.flatMap (fun b => if unicode.IsUpper b = true then [95, unicode.ToLower b] else [unicode.ToLower b])
      = l.flatMap (fun d => if isAsciiUpper d = true then [95, asciiToLower d] else [asciiToLower d]) := by
  induction l with
  | nil => rfl
  | cons b l ih =>
    have hb : b < 128 := h b (List.mem_cons_self b l)
    simp only [List.flatMap_cons]
    rw [ih (fun x hx => h x (List.mem_cons_of_mem b hx)), unicode_IsUpper_ascii hb,
      unicode_ToLower_ascii hb]

theorem toSnakeSpec_ascii {s : GoString} (h : IsAscii s) : IsAscii (toSnakeSpec s) := by
  cases s with
  | nil => intro b hb; simp [toSnakeSpec] at hb
  | cons c rest =>
    intro b hb
    simp only [toSnakeSpec, List.mem_cons, List.mem_flatMap] at hb
    rcases hb with rfl | ⟨d, hd, hbd⟩
    · exact asciiToLower_lt (h c (List.mem_cons_self c rest))
    · have hd128 : d < 128 := h d (List.mem_cons_of_mem c hd)
      have := asciiToLower_lt hd128
      split_ifs at hbd <;> simp at hbd <;> omega

/-- On a non-empty ASCII string the code computes the reference definition. -/
theorem camelCaseToUnderscore_ascii {s : GoString} (hne : s ≠ []) (h : IsAscii s) :
    camelCaseToUnderscore s = .ok (toSnakeSpec s) := by
  cases s with
  | nil => exact absurd rfl hne
  | cons c rest =>
    have hc : c < 128 := h c (List.mem_cons_self c rest)
    have hrest : ∀ b ∈ rest, b < 128 := fun x hx => h x (List.mem_cons_of_mem c hx)
    have hspec := toSnakeSpec_ascii h
    simp only [camelCaseToUnderscore, camelLoop_eq, flatMap_snake_ascii hrest,
      unicode_ToLower_ascii hc]
    congr 1
    exact runesToString_ascii hspec

/-! ## Field guard -/

theorem inClass_eq_false_iff (b : Nat) :
    isInjectionReg.inClass b = false ↔ (isAsciiLetter b = true ∨ b = 95) := by
  simp only [isInjectionReg.inClass, isAsciiLetter, isAsciiUpper, isAsciiLower,
    Bool.not_eq_false', Bool.or_eq_true, decide_eq_true_eq]
  omega

theorem matchString_eq_false_iff (s : GoString) :
    isInjectionReg.MatchString s = false ↔ ∀ b ∈ s, isAsciiLetter b = true ∨ b = 95 := by
  induction s with
  | nil => simp [isInjectionReg.MatchString]
  | cons b rest ih =>
    simp only [isInjectionReg.MatchString, isInjectionReg.matchHere, Bool.or_eq_false_iff, ih,
      inClass_eq_false_iff, List.mem_cons, forall_eq_or_imp]

/-- C1. The field guard accepts a string (the pattern `isInjectionReg` does not
match it) if and only if every character of it is an ASCII letter or an
underscore. In particular a string containing a digit, a space, a quote (single
or double) or a semicolon is rejected, and a string made only of ASCII letters
and underscores is accepted. -/
theorem fieldGuard_accepts_iff (s : GoString) :
    (isInjectionReg.MatchString s = false ↔ ∀ b ∈ s, isAsciiLetter b = true ∨ b = 95) ∧
    ((∃ b ∈ s, (48 ≤ b ∧ b ≤ 57) ∨ b = 32 ∨ b = 39 ∨ b = 34 ∨ b = 59) →
      isInjectionReg.MatchString s = true) ∧
    ((∀ b ∈ s, isAsciiLetter b = true ∨ b = 95) → isInjectionReg.MatchString s = false) := by
  refine ⟨matchString_eq_false_iff s, ?_, (matchString_eq_false_iff s).2⟩
  rintro ⟨b, hb, hbad⟩
  by_contra hm
  have hacc := (matchString_eq_false_iff s).1 (by simpa using hm) b hb
  simp only [isAsciiLetter, isAsciiUpper, isAsciiLower, Bool.or_eq_true, decide_eq_true_eq] at hacc
  omega

/-- Witness for C1: `created_at` passes the guard, `age; DROP TABLE x` does not. -/
theorem fieldGuard_accepts_iff_witness :
    isInjectionReg.MatchString (lit "created_at") = false ∧
    isInjectionReg.MatchString (lit "age; DROP TABLE x") = true :=
  ⟨(fieldGuard_accepts_iff (lit "created_at")).2.2 (by decide),
   (fieldGuard_accepts_iff (lit "age; DROP TABLE x")).2.1 ⟨59, by decide, by decide⟩⟩

/-! ## Name converter -/

theorem toSnakeSpec_no_upper (s : GoString) : ∀ b ∈ toSnakeSpec s, isAsciiUpper b = false := by
  cases s with
  | nil => intro b hb; simp [toSnakeSpec] at hb
  | cons c rest =>
    intro b hb
    simp only [toSnakeSpec, List.mem_cons, List.mem_flatMap] at hb
    rcases hb with rfl | ⟨d, _, hbd⟩
    · exact isAsciiUpper_asciiToLower c
    · split_ifs at hbd
      · simp only [List.mem_cons, List.mem_singleton, List.not_mem_nil, or_false] at hbd
        rcases hbd with rfl | rfl
        · decide
        · exact isAsciiUpper_asciiToLower d
      · simp only [List.mem_singleton] at hbd
        subst hbd
        exact isAsciiUpper_asciiToLower d

theorem length_flatMap_snake (l : List Nat) :
    (l.flatMap (fun d => if isAsciiUpper d = true then [95, asciiToLower d] else [asciiToLower d])).length
      = l.length + l.countP isAsciiUpper := by
  induction l with
  | nil => rfl
  | cons d l ih =>
    simp only [List.flatMap_cons, List.length_append, ih, List.length_cons, List.countP_cons]
    by_cases hd : isAsciiUpper d = true <;> simp [hd] <;> omega

/-- C9. For every non-empty ASCII identifier `s`, `camelCaseToUnderscore s`
returns the reference definition: the lower-cased first character followed, for
each subsequent character, by an underscore if it is uppercase and then the
character lower-cased. Hence the result has no uppercase letter and its length
is `len(s)` plus the number of uppercase letters after the first position. -/
theorem camelCaseToUnderscore_reference (s : GoString) (hne : s ≠ []) (h : IsAscii s) :
    camelCaseToUnderscore s = .ok (toSnakeSpec s) ∧
    (∀ b ∈ toSnakeSpec s, isAsciiUpper b = false) ∧
    (toSnakeSpec s).length = s.length + s.tail.countP isAsciiUpper := by
  refine ⟨camelCaseToUnderscore_ascii hne h, toSnakeSpec_no_upper s, ?_⟩
  cases s with
  | nil => exact absurd rfl hne
  | cons c rest =>
    simp only [toSnakeSpec, List.length_cons, length_flatMap_snake, List.tail_cons]
    omega

/-- Witnesses for C9: `UserID` gives `user_i_d` and `name` gives `name`. -/
theorem camelCaseToUnderscore_reference_witness :
    camelCaseToUnderscore (lit "UserID") = .ok (lit "user_i_d") ∧
    camelCaseToUnderscore (lit "name") = .ok (lit "name") :=
  ⟨(camelCaseToUnderscore_reference (lit "UserID") (by decide) (by decide)).1,
   (camelCaseToUnderscore_reference (lit "name") (by decide) (by decide)).1⟩

theorem upperLoop_eq (l : List Nat) (hl : ∀ b ∈ l, b < 128) :
    ∀ (output : List Nat) (f : Bool) (prev : Option Nat), (f = true ↔ prev = some 95) →
      underscoreToUpperCamelCase.loop output f l =
        output ++ (List.zip (prev :: l.map some) l).filterMap
          (fun e => if e.2 = 95 then none
                    else if e.1 = some 95 then some (asciiToUpper e.2) else some e.2) := by
  induction l with
  | nil => intro output f prev _; simp [underscoreToUpperCamelCase.loop]
  | cons b l ih =>
    intro output f prev hf
    have hb : b < 128 := hl b (List.mem_cons_self b l)
    have ih1 := ih (fun x hx => hl x (List.mem_cons_of_mem b hx))
    simp only [underscoreToUpperCamelCase.loop, List.map_cons, List.zip_cons_cons,
      List.filterMap_cons]
    by_cases h95 : b = 95
    · subst h95
      rw [if_pos rfl, ih1 output true (some 95) (by simp)]
      simp
    · rw [if_neg h95]
      cases f with
      | true =>
        have hp : prev = some 95 := hf.1 rfl
        rw [if_pos rfl, ih1 (output ++ [unicode.ToUpper b]) false (some b) (by simp [h95]),
          unicode_ToUpper_ascii hb]
        simp [h95, hp]
      | false =>
        have hp : ¬ prev = some 95 := fun hp => Bool.false_ne_true (hf.2 hp)
        rw [if_neg Bool.false_ne_true, ih1 (output ++ [b]) false (some b) (by simp [h95])]
        simp [h95, hp]

theorem toUpperCamelSpec_mem {s : GoString} {x : Nat} (hx : x ∈ toUpperCamelSpec s) :
    ∃ b ∈ s, b ≠ 95 ∧ (x = asciiToUpper b ∨ x = b) := by
  simp only [toUpperCamelSpec, List.mem_filterMap] at hx
  obtain ⟨e, he, hxe⟩ := hx
  have hmem : e.2 ∈ s := (List.of_mem_zip he).2
  refine ⟨e.2, hmem, ?_⟩
  by_cases h95 : e.2 = 95
  · simp [h95] at hxe
  · by_cases hp : e.1 = some 95
    · simp only [h95, hp, if_false, if_true, Option.some.injEq] at hxe
      exact ⟨h95, Or.inl hxe.symm⟩
    · simp only [h95, hp, if_false, Option.some.injEq] at hxe
      exact ⟨h95, Or.inr hxe.symm⟩

theorem asciiToUpper_ne_underscore {b : Nat} (h : b ≠ 95) : asciiToUpper b ≠ 95 := by
  simp only [asciiToUpper, isAsciiLower, decide_eq_true_eq]
  split_ifs <;> omega

theorem upperLoop_trailing (l : List Nat) :
    ∀ (output : List Nat) (f : Bool),
      underscoreToUpperCamelCase.loop output f (l ++ [95]) =
        underscoreToUpperCamelCase.loop output f l := by
  induction l with
  | nil => intro output f; simp [underscoreToUpperCamelCase.loop]
  | cons b l ih =>
    intro output f
    simp only [List.cons_append, underscoreToUpperCamelCase.loop, List.append_eq, ih]

/-- C10. `underscoreToUpperCamelCase` is total (it returns a string for every
input, the empty one and those with leading, doubled or trailing underscores
included). For every ASCII string `s` its result is `s` with every underscore
removed and every other character that is immediately preceded by an underscore
upper-cased, the remaining characters unchanged; the result contains no
underscore, and a trailing underscore contributes nothing. -/
theorem underscoreToUpperCamelCase_reference (s : GoString) (h : IsAscii s) :
    underscoreToUpperCamelCase s = toUpperCamelSpec s ∧
    (∀ b ∈ underscoreToUpperCamelCase s, b ≠ 95) ∧
    underscoreToUpperCamelCase (s ++ [95]) = underscoreToUpperCamelCase s := by
  have hspec : ∀ x ∈ toUpperCamelSpec s, x < 128 := by
    intro x hx
    obtain ⟨b, hb, _, hxb | hxb⟩ := toUpperCamelSpec_mem hx
    · rw [hxb]; exact asciiToUpper_lt (h b hb)
    · rw [hxb]; exact h b hb
  have heq : underscoreToUpperCamelCase s = toUpperCamelSpec s := by
    have hloop := upperLoop_eq s h [] false none (by simp)
    rw [List.nil_append] at hloop
    unfold underscoreToUpperCamelCase
    rw [hloop]
    exact runesToString_ascii hspec
  refine ⟨heq, ?_, ?_⟩
  · intro x hx
    rw [heq] at hx
    obtain ⟨b, _, hb95, hxb | hxb⟩ := toUpperCamelSpec_mem hx
    · rw [hxb]; exact asciiToUpper_ne_underscore hb95
    · rw [hxb]; exact hb95
  · simp only [underscoreToUpperCamelCase, upperLoop_trailing]

/-- Witness for C10: `_x` gives `X`; the empty string, `a__b` and `ab_` are handled. -/
theorem underscoreToUpperCamelCase_reference_witness :
    underscoreToUpperCamelCase (lit "_x") = lit "X" ∧
    underscoreToUpperCamelCase (lit "") = lit "" ∧
    underscoreToUpperCamelCase (lit "a__b") = lit "aB" ∧
    underscoreToUpperCamelCase (lit "ab_") = lit "ab" :=
  ⟨(underscoreToUpperCamelCase_reference (lit "_x") (by decide)).1,
   (underscoreToUpperCamelCase_reference (lit "") (by decide)).1,
   (underscoreToUpperCamelCase_reference (lit "a__b") (by decide)).1,
   (underscoreToUpperCamelCase_reference (lit "ab_") (by decide)).1⟩

theorem upperLoop_snake (l : List Nat) (hl : ∀ b ∈ l, b < 128) (hu : ∀ b ∈ l, b ≠ 95) :
    ∀ output : List Nat,
      underscoreToUpperCamelCase.loop output false
        (l.flatMap (fun d => if isAsciiUpper d = true then [95, asciiToLower d] else [asciiToLower d]))
        = output ++ l := by
  induction l with
  | nil => intro output; simp [underscoreToUpperCamelCase.loop]
  | cons d l ih =>
    intro output
    have hd : d < 128 := hl d (List.mem_cons_self d l)
    have hd95 : d ≠ 95 := hu d (List.mem_cons_self d l)
    have ih1 := ih (fun x hx => hl x (List.mem_cons_of_mem d hx))
      (fun x hx => hu x (List.mem_cons_of_mem d hx))
    simp only [List.flatMap_cons]
    by_cases hup : isAsciiUpper d = true
    · have hrange : 65 ≤ d ∧ d ≤ 90 := by simpa [isAsciiUpper] using hup
      have hlow : asciiToLower d = d + 32 := by simp [asciiToLower, hup]
      have hne : d + 32 ≠ 95 := by omega
      have hback : unicode.ToUpper (d + 32) = d := by
        rw [unicode_ToUpper_ascii (by omega)]
        simp only [asciiToUpper, isAsciiLower, decide_eq_true_eq]
        split_ifs <;> omega
      simp only [hup, if_true, hlow, List.cons_append, List.nil_append, List.append_eq,
        underscoreToUpperCamelCase.loop, if_neg hne, hback]
      rw [ih1]
      simp
    · have hlow : asciiToLower d = d := by simp [asciiToLower, hup]
      simp only [hup, hlow, List.cons_append, List.nil_append, List.append_eq,
        underscoreToUpperCamelCase.loop, if_neg hd95, Bool.false_eq_true, if_false]
      rw [ih1]
      simp

/-- C3 (counterexample). `UserName` is non-empty and has no underscore, yet the
round trip through `camelCaseToUnderscore` and `underscoreToUpperCamelCase`
returns `userName`. -/
theorem roundTrip_fails_on_uppercase_first :
    lit "UserName" ≠ [] ∧ (∀ b ∈ lit "UserName", b ≠ 95) ∧
    camelCaseToUnderscore (lit "UserName") = .ok (lit "user_name") ∧
    underscoreToUpperCamelCase (lit "user_name") = lit "userName" ∧
    underscoreToUpperCamelCase (lit "user_name") ≠ lit "UserName" :=
  ⟨by decide, by decide, rfl, rfl, by decide⟩

/-- The exact value of the round trip on an ASCII identifier without underscore:
the identifier with its first character lower-cased. -/
theorem roundTrip_exact (c : Nat) (rest : GoString) (h : IsAscii (c :: rest))
    (hu : ∀ b ∈ c :: rest, b ≠ 95) :
    camelCaseToUnderscore (c :: rest) = .ok (toSnakeSpec (c :: rest)) ∧
      underscoreToUpperCamelCase (toSnakeSpec (c :: rest)) = asciiToLower c :: rest := by
  have hc : c < 128 := h c (List.mem_cons_self c rest)
  have hc95 : c ≠ 95 := hu c (List.mem_cons_self c rest)
  have hrest : ∀ b ∈ rest, b < 128 := fun x hx => h x (List.mem_cons_of_mem c hx)
  have hrest95 : ∀ b ∈ rest, b ≠ 95 := fun x hx => hu x (List.mem_cons_of_mem c hx)
  have hlow95 : asciiToLower c ≠ 95 := by
    simp only [asciiToLower, isAsciiUpper, decide_eq_true_eq]
    split_ifs <;> omega
  have hascii : ∀ x ∈ asciiToLower c :: rest, x < 128 := by
    intro x hx
    rcases List.mem_cons.1 hx with rfl | hx
    · exact asciiToLower_lt hc
    · exact hrest x hx
  refine ⟨camelCaseToUnderscore_ascii (List.cons_ne_nil c rest) h, ?_⟩
  simp only [underscoreToUpperCamelCase, toSnakeSpec, underscoreToUpperCamelCase.loop,
    if_neg hlow95, Bool.false_eq_true, if_false, List.nil_append]
  rw [upperLoop_snake rest hrest hrest95]
  exact runesToString_ascii hascii

theorem asciiToLower_idem (c : Nat) : asciiToLower (asciiToLower c) = asciiToLower c := by
  simp only [asciiToLower, isAsciiUpper, decide_eq_true_eq]
  split_ifs <;> omega

/-- C3 (amended). For every non-empty ASCII identifier `s = c :: rest` without an
underscore, `underscoreToUpperCamelCase (camelCaseToUnderscore s)` is `s` up to
the letter case of its first character: every character after the first is
restored, and the first character is `c` or its other-case form. -/
theorem roundTrip_up_to_first_case (c : Nat) (rest : GoString) (h : IsAscii (c :: rest))
    (hu : ∀ b ∈ c :: rest, b ≠ 95) :
    ∃ k x, camelCaseToUnderscore (c :: rest) = .ok k ∧
      underscoreToUpperCamelCase k = x :: rest ∧ asciiToLower x = asciiToLower c :=
  ⟨toSnakeSpec (c :: rest), asciiToLower c, (roundTrip_exact c rest h hu).1,
    (roundTrip_exact c rest h hu).2, asciiToLower_idem c⟩

/-- Witness for C3 (amended), at `userID` (first byte 117, `u`). -/
theorem roundTrip_up_to_first_case_witness :
    ∃ k x, camelCaseToUnderscore (lit "userID") = .ok k ∧
      underscoreToUpperCamelCase k = x :: lit "serID" ∧ asciiToLower x = asciiToLower 117 :=
  roundTrip_up_to_first_case 117 (lit "serID") (by decide) (by decide)

/-! ## Predicate compiler -/

theorem index_go_split (pre rest : GoString) (hpre : ∀ b ∈ pre, b ≠ 95) :
    ∀ i : Nat, strings.Index.go [95] (pre ++ 95 :: rest) i = ((i + pre.length : Nat) : Int) := by
  induction pre with
  | nil => intro i; simp [strings.Index.go, List.isPrefixOf]
  | cons b pre ih =>
    intro i
    have hb : b ≠ 95 := hpre b (List.mem_cons_self b pre)
    have hb2 : ¬ (95 = b) := fun h => hb h.symm
    have ih1 := ih (fun x hx => hpre x (List.mem_cons_of_mem b hx)) (i + 1)
    simp only [List.cons_append, strings.Index.go, List.isPrefixOf, beq_iff_eq, hb2,
      Bool.and_eq_true, false_and, if_false, Bool.false_eq_true, List.append_eq, ih1,
      List.length_cons]
    congr 1
    omega

theorem index_go_none (k : GoString) (hk : ∀ b ∈ k, b ≠ 95) :
    ∀ i : Nat, strings.Index.go [95] k i = -1 := by
  induction k with
  | nil => intro i; simp [strings.Index.go]
  | cons b k ih =>
    intro i
    have hb : b ≠ 95 := hk b (List.mem_cons_self b k)
    have hb2 : ¬ (95 = b) := fun h => hb h.symm
    simp only [strings.Index.go, List.isPrefixOf, beq_iff_eq, hb2, Bool.and_eq_true, false_and,
      if_false, Bool.false_eq_true, ih (fun x hx => hk x (List.mem_cons_of_mem b hx)) (i + 1)]

/-- The `default` case on a key without underscore: equality on the whole name. -/
theorem doWhereDefault_no_underscore (w : WrapDB) (k : GoString) (val : GoValue)
    (hk : ∀ b ∈ k, b ≠ 95) :
    w.doWhereDefault k val = w.call (DbCall.Where (lit "`" ++ k ++ lit "` = ?") val) := by
  have hidx : strings.Index k (lit "_") = -1 := index_go_none k hk 0
  simp [WrapDB.doWhereDefault, hidx]

/-- The `default` case on a key split at its first underscore. -/
theorem doWhereDefault_split (w : WrapDB) (pre rest : GoString) (val : GoValue)
    (hpre : ∀ b ∈ pre, b ≠ 95) :
    w.doWhereDefault (pre ++ 95 :: rest) val =
      w.call (DbCall.Where
        (match specOperator pre with
          | some op => lit "`" ++ rest ++ lit "` " ++ op ++ lit " ?"
          | none => lit "`" ++ (pre ++ 95 :: rest) ++ lit "` = ?") val) := by
  have hidx : strings.Index (pre ++ 95 :: rest) (lit "_") = (pre.length : Int) := by
    have := index_go_split pre rest hpre 0
    simpa [strings.Index, lit_underscore] using this
  have hne : (pre.length : Int) ≠ -1 := by omega
  have htake : List.take pre.length (pre ++ 95 :: rest) = pre := by simp
  have hdrop : List.drop (pre.length + 1) (pre ++ 95 :: rest) = rest := by
    rw [List.drop_append_eq_append_drop]
    simp
  have hnat : ((pre.length : Int) + 1).toNat = pre.length + 1 := by omega
  unfold WrapDB.doWhereDefault
  simp only [hidx]
  rw [if_pos hne]
  simp only [Int.toNat_ofNat, htake, hnat, hdrop]
  unfold specOperator
  by_cases h0 : pre = lit "neq"
  · rw [if_pos h0, if_pos h0]; simp only [List.append_assoc]; rfl
  rw [if_neg h0, if_neg h0]
  by_cases h1 : pre = lit "gt"
  · rw [if_pos h1, if_pos h1]; simp only [List.append_assoc]; rfl
  rw [if_neg h1, if_neg h1]
  by_cases h2 : pre = lit "gte"
  · rw [if_pos h2, if_pos h2]; simp only [List.append_assoc]; rfl
  rw [if_neg h2, if_neg h2]
  by_cases h3 : pre = lit "lt"
  · rw [if_pos h3, if_pos h3]; simp only [List.append_assoc]; rfl
  rw [if_neg h3, if_neg h3]
  by_cases h4 : pre = lit "lte"
  · rw [if_pos h4, if_pos h4]; simp only [List.append_assoc]; rfl
  rw [if_neg h4, if_neg h4]
  by_cases h5 : pre = lit "in"
  · rw [if_pos h5, if_pos h5]; simp only [List.append_assoc]; rfl
  rw [if_neg h5, if_neg h5]
  by_cases h6 : pre = lit "nin"
  · rw [if_pos h6, if_pos h6]; simp only [List.append_assoc]; rfl
  rw [if_neg h6, if_neg h6]
  by_cases h7 : pre = lit "like"
  · rw [if_pos h7, if_pos h7]; simp only [List.append_assoc]; rfl
  rw [if_neg h7, if_neg h7]
  by_cases h8 : pre = lit "nlike"
  · rw [if_pos h8, if_pos h8]; simp only [List.append_assoc]; rfl
  rw [if_neg h8, if_neg h8]
  by_cases h9 : pre = lit "eq"
  · rw [if_pos h9, if_pos h9]; simp only [List.append_assoc]; rfl
  rw [if_neg h9, if_neg h9]

theorem exists_first_underscore (k : GoString) (hb : 95 ∈ k) :
    ∃ pre rest, k = pre ++ 95 :: rest ∧ ∀ b ∈ pre, b ≠ 95 := by
  induction k with
  | nil => simp at hb
  | cons a k ih =>
    by_cases ha : a = 95
    · exact ⟨[], k, by simp [ha], by simp⟩
    · have hb2 : 95 ∈ k := by
        rcases List.mem_cons.1 hb with h | h
        · exact absurd h.symm ha
        · exact h
      obtain ⟨pre, rest, hk2, hpre⟩ := ih hb2
      refine ⟨a :: pre, rest, by simp [hk2], ?_⟩
      intro x hx
      rcases List.mem_cons.1 hx with rfl | hx
      · exact ha
      · exact hpre x hx

/-- The `default` case always issues exactly one `Where` call bound to the value. -/
theorem doWhereDefault_call (w : WrapDB) (k : GoString) (val : GoValue) :
    ∃ q, w.doWhereDefault k val = w.call (DbCall.Where q val) := by
  by_cases hmem : ∀ b ∈ k, b ≠ 95
  · exact ⟨_, doWhereDefault_no_underscore w k val hmem⟩
  · simp only [ne_eq, not_forall, not_not] at hmem
    obtain ⟨b, hb, rfl⟩ := hmem
    obtain ⟨pre, rest, rfl, hpre⟩ := exists_first_underscore k hb
    exact ⟨_, doWhereDefault_split w pre rest val hpre⟩

/-- C2. For every key that is not skipped and whose snake_case form `k` is not a
reserved directive name, `doWhere` issues exactly one `Where` call and nothing
else, with the value as the bound parameter. If `k` has an underscore and the
text before the first one is an operator token (neq, gt, gte, lt, lte, in, nin,
like, nlike, eq), the fragment is the back-quoted text after that underscore
followed by the operator (`<>`, `>`, `>=`, `<`, `<=`, `in`, `not in`, `like`,
`not like`, `=`; keywords in lower case) and `?`; otherwise (no underscore, or
another text before it) it is the back-quoted `k` followed by `= ?`. -/
theorem doWhere_predicate (w : WrapDB) (key k : GoString) (val : GoValue)
    (hkey : key ≠ []) (hmark : strings.HasPrefix key (lit "#") = false)
    (hval : ¬ (w.allowEmptyString < 1 ∧ val = GoValue.str []))
    (hk : camelCaseToUnderscore key = .ok k) (hdir : ¬ IsDirective k) :
    ∃ q, w.doWhere key val = .ok (w.call (DbCall.Where q val)) ∧
      (∀ pre rest op, k = pre ++ 95 :: rest → (∀ b ∈ pre, b ≠ 95) → specOperator pre = some op →
        q = lit "`" ++ rest ++ lit "` " ++ op ++ lit " ?") ∧
      (∀ pre rest, k = pre ++ 95 :: rest → (∀ b ∈ pre, b ≠ 95) → specOperator pre = none →
        q = lit "`" ++ k ++ lit "` = ?") ∧
      ((∀ b ∈ k, b ≠ 95) → q = lit "`" ++ k ++ lit "` = ?") := by
  have hdo : w.doWhere key val = .ok (w.doWhereDefault k val) := by
    have hlen : ¬ (key.length = 0) := fun h => hkey (List.length_eq_zero.1 h)
    simp only [IsDirective, not_or] at hdir
    obtain ⟨h1, h2, h3, h4, h5⟩ := hdir
    simp only [WrapDB.doWhere, hlen, hmark, hval, hk, h1, h2, h3, h4, h5, false_or, if_false,
      Bool.false_eq_true, or_self]
  have hinj : ∀ q1 q2 : GoString,
      w.call (DbCall.Where q1 val) = w.call (DbCall.Where q2 val) → q1 = q2 := by
    intro q1 q2 h
    have h2 : w.Db ++ [DbCall.Where q1 val] = w.Db ++ [DbCall.Where q2 val] :=
      congrArg WrapDB.Db h
    have h3 := List.append_cancel_left h2
    simpa using h3
  have hex := doWhereDefault_call w k val
  obtain ⟨q, hq⟩ := hex
  refine ⟨q, by rw [hdo, hq], ?_, ?_, ?_⟩
  · intro pre rest op hsplit hpre hop
    apply hinj
    rw [← hq, hsplit, doWhereDefault_split w pre rest val hpre, hop]
  · intro pre rest hsplit hpre hop
    apply hinj
    rw [← hq]
    conv_lhs => rw [hsplit, doWhereDefault_split w pre rest val hpre, hop]
    simp only [hsplit]
  · intro hmem
    apply hinj
    rw [← hq, doWhereDefault_no_underscore w k val hmem]

/-- Witness for C2: key `gt_age` with value 18 gives the fragment `age` (back-quoted)
`> ?` bound to 18. -/
theorem doWhere_predicate_witness :
    (NewWrapDB 100 0).doWhere (lit "gt_age") (GoValue.int 18) =
      .ok ((NewWrapDB 100 0).call (DbCall.Where (lit "`age` > ?") (GoValue.int 18))) := by
  obtain ⟨q, hq, hop, _, _⟩ :=
    doWhere_predicate (NewWrapDB 100 0) (lit "gt_age") (lit "gt_age") (GoValue.int 18)
      (by decide) (by decide) (by decide) rfl (by decide)
  have hq2 : q = lit "`age` > ?" :=
    hop (lit "gt") (lit "age") (lit ">") rfl (by decide) rfl
  rw [hq, hq2]

/-! ## Paging -/

/-- The calls issued by `tryPage`, in terms of the effective page size. -/
theorem tryPage_Db (w : WrapDB) :
    w.tryPage.Db =
      w.Db ++
        (if w.effectivePagesize > 0 then [DbCall.Limit w.effectivePagesize] else []) ++
        (match w.page with
          | some p => [DbCall.Offset (wrapInt (w.effectivePagesize * wrapInt (p - 1)))]
          | none => []) := by
  cases hps : w.pagesize with
  | none =>
    cases hp : w.page with
    | none =>
      by_cases hm : w.maxPagesize > 0 <;>
        simp [WrapDB.tryPage, WrapDB.call, WrapDB.effectivePagesize, hps, hp, hm]
    | some p =>
      by_cases hm : w.maxPagesize > 0 <;>
        simp [WrapDB.tryPage, WrapDB.call, WrapDB.effectivePagesize, hps, hp, hm]
  | some s =>
    cases hp : w.page with
    | none =>
      by_cases hs : s > w.maxPagesize <;> by_cases hm : w.maxPagesize > 0 <;>
        by_cases hs0 : s > 0 <;>
        simp [WrapDB.tryPage, WrapDB.call, WrapDB.effectivePagesize, hps, hp, hm, hs, hs0]
    | some p =>
      by_cases hs : s > w.maxPagesize <;> by_cases hm : w.maxPagesize > 0 <;>
        by_cases hs0 : s > 0 <;>
        simp [WrapDB.tryPage, WrapDB.call, WrapDB.effectivePagesize, hps, hp, hm, hs, hs0]

theorem wrapInt_of_inRange {x : Int} (h1 : minInt ≤ x) (h2 : x ≤ maxInt) : wrapInt x = x := by
  simp only [minInt, maxInt] at h1 h2
  simp only [wrapInt]
  omega

/-- C4. With a positive configured maximum `m` and a requested page size `s`:
if `s > 0` and a page number `p` is set, `tryPage` issues exactly `Limit(min(s, m))`
and then `Offset(min(s, m) * (p - 1))`, the product being the one of Go `int`
(it is the exact product whenever `p - 1` and the product are representable);
if `s <= 0`, no `Limit` call is issued. -/
theorem tryPage_arithmetic (w : WrapDB) (s : Int) (hm : 0 < w.maxPagesize)
    (hs : w.pagesize = some s) :
    (0 < s → ∀ p, w.page = some p →
      w.tryPage.Db = w.Db ++ [DbCall.Limit (min s w.maxPagesize),
        DbCall.Offset (wrapInt (min s w.maxPagesize * wrapInt (p - 1)))] ∧
      (minInt ≤ p - 1 → p - 1 ≤ maxInt → minInt ≤ min s w.maxPagesize * (p - 1) →
        min s w.maxPagesize * (p - 1) ≤ maxInt →
        wrapInt (min s w.maxPagesize * wrapInt (p - 1)) = min s w.maxPagesize * (p - 1))) ∧
    (s ≤ 0 → ∃ calls, w.tryPage.Db = w.Db ++ calls ∧ ∀ n, DbCall.Limit n ∉ calls) := by
  constructor
  · intro hs0 p hp
    have heff : w.effectivePagesize = min s w.maxPagesize := by
      simp only [WrapDB.effectivePagesize, hs]
      split_ifs with h
      · exact (min_eq_right (le_of_lt h)).symm
      · exact (min_eq_left (not_lt.1 h)).symm
    have hpos : min s w.maxPagesize > 0 := lt_min hs0 hm
    refine ⟨?_, ?_⟩
    · rw [tryPage_Db, hp]
      simp only [heff, hpos, if_true, List.append_assoc, List.singleton_append]
    · intro h1 h2 h3 h4
      rw [wrapInt_of_inRange h1 h2, wrapInt_of_inRange h3 h4]
  · intro hs0
    have hle : ¬ (s > w.maxPagesize) := by omega
    have heff : w.effectivePagesize = s := by simp [WrapDB.effectivePagesize, hs, hle]
    refine ⟨_, by rw [tryPage_Db, List.append_assoc], ?_⟩
    intro n hn
    have hnot : ¬ (s > 0) := by omega
    simp only [heff, hnot, if_false, List.nil_append] at hn
    cases hp : w.page with
    | none => simp [hp] at hn
    | some p => simp [hp] at hn

/-- Witness for C4: page 2 with page size 10 under maximum 100 gives limit 10 and offset 10. -/
theorem tryPage_arithmetic_witness :
    (WrapDB.tryPage { NewWrapDB 100 0 with page := some 2, pagesize := some 10 }).Db =
      [DbCall.Limit 10, DbCall.Offset 10] :=
  ((tryPage_arithmetic { NewWrapDB 100 0 with page := some 2, pagesize := some 10 } 10
    (by decide) rfl).1 (by decide) 2 rfl).1

/-- C5. Whatever the page size (unset, negative, zero or positive) and the
configured maximum, every limit that `tryPage` applies is at most the maximum;
and a requested size greater than a positive maximum yields the limit equal to
the maximum. -/
theorem tryPage_cap (w : WrapDB) :
    ∃ calls, w.tryPage.Db = w.Db ++ calls ∧
      (∀ n, DbCall.Limit n ∈ calls → n ≤ w.maxPagesize) ∧
      (∀ s, w.pagesize = some s → 0 < w.maxPagesize → w.maxPagesize < s →
        DbCall.Limit w.maxPagesize ∈ calls ∧ ∀ n, DbCall.Limit n ∈ calls → n = w.maxPagesize) := by
  have hle : w.effectivePagesize ≤ w.maxPagesize := by
    unfold WrapDB.effectivePagesize
    cases w.pagesize with
    | none => exact le_refl _
    | some s =>
      simp only
      split_ifs with h
      · exact le_refl _
      · exact not_lt.1 h
  refine ⟨_, by rw [tryPage_Db, List.append_assoc], ?_, ?_⟩
  · intro n hn
    have hn2 : w.effectivePagesize > 0 ∧ n = w.effectivePagesize := by
      by_cases h0 : w.effectivePagesize > 0
      · refine ⟨h0, ?_⟩
        cases hp : w.page <;> simpa [hp, h0] using hn
      · exfalso
        cases hp : w.page <;> simp [hp, h0] at hn
    rw [hn2.2]
    exact hle
  · intro s hps hm hs
    have hs2 : s > w.maxPagesize := hs
    have heff : w.effectivePagesize = w.maxPagesize := by
      simp [WrapDB.effectivePagesize, hps, hs2]
    have hm2 : w.maxPagesize > 0 := hm
    cases hp : w.page with
    | none => simp [heff, hm2]
    | some p => simp [heff, hm2]

/-- Witness for C5: page size 10000 with maximum 100 gives limit 100. -/
theorem tryPage_cap_witness :
    ∃ calls, (WrapDB.tryPage { NewWrapDB 100 0 with pagesize := some 10000 }).Db = [] ++ calls ∧
      DbCall.Limit 100 ∈ calls ∧ ∀ n, DbCall.Limit n ∈ calls → n = 100 := by
  obtain ⟨calls, hdb, _, hcap⟩ := tryPage_cap { NewWrapDB 100 0 with pagesize := some 10000 }
  exact ⟨calls, hdb, hcap 10000 rfl (by decide) (by decide)⟩

/-! ## Ordering -/

theorem toSnakeSpec_letters {s : GoString} (h : ∀ b ∈ s, isAsciiLetter b = true) :
    ∀ b ∈ toSnakeSpec s, isAsciiLetter b = true ∨ b = 95 := by
  have hlow : ∀ d, isAsciiLetter d = true → isAsciiLetter (asciiToLower d) = true := by
    intro d hd
    simp only [isAsciiLetter, isAsciiUpper, isAsciiLower, asciiToLower, Bool.or_eq_true,
      decide_eq_true_eq] at hd ⊢
    split_ifs <;> omega
  cases s with
  | nil => intro b hb; simp [toSnakeSpec] at hb
  | cons c rest =>
    intro b hb
    simp only [toSnakeSpec, List.mem_cons, List.mem_flatMap] at hb
    rcases hb with rfl | ⟨d, hd, hbd⟩
    · exact Or.inl (hlow c (h c (List.mem_cons_self c rest)))
    · have hd2 := hlow d (h d (List.mem_cons_of_mem c hd))
      split_ifs at hbd
      · simp only [List.mem_cons, List.mem_singleton, List.not_mem_nil, or_false] at hbd
        rcases hbd with rfl | rfl
        · exact Or.inr rfl
        · exact Or.inl hd2
      · simp only [List.mem_singleton] at hbd
        subst hbd
        exact Or.inl hd2

theorem isAscii_of_letters {s : GoString} (h : ∀ b ∈ s, isAsciiLetter b = true) : IsAscii s := by
  intro b hb
  have := h b hb
  simp only [isAsciiLetter, isAsciiUpper, isAsciiLower, Bool.or_eq_true, decide_eq_true_eq] at this
  omega

/-- C6. For every value `desc_` followed by `X`, where `X` is a non-empty string
of ASCII letters whose first character is lowercase, `doWhere("orderKey", value)`
issues no call and `tryOrder` after it issues exactly one `Order` call, whose
clause is `camelCaseToUnderscore(X)` followed by ` desc`. This holds from every
state, in particular from one with no order key and no direction set. -/
theorem orderKey_desc (w : WrapDB) (c : Nat) (rest : GoString)
    (hletters : ∀ b ∈ c :: rest, isAsciiLetter b = true) (hfirst : isAsciiLower c = true) :
    ∃ w1 cx, w.doWhere (lit "orderKey") (GoValue.str (lit "desc_" ++ c :: rest)) = .ok w1 ∧
      camelCaseToUnderscore (c :: rest) = .ok cx ∧
      w1.Db = w.Db ∧
      w1.tryOrder.Db = w.Db ++ [DbCall.Order (cx ++ lit " desc")] := by
  have hascii : IsAscii (c :: rest) := isAscii_of_letters hletters
  have hcx := camelCaseToUnderscore_ascii (List.cons_ne_nil c rest) hascii
  have hnotup : isAsciiUpper c = false := by
    simp only [isAsciiLower, isAsciiUpper, decide_eq_true_eq, decide_eq_false_iff_not] at hfirst ⊢
    omega
  have hasciiV : IsAscii (lit "desc_" ++ c :: rest) := by
    intro b hb
    rcases List.mem_append.1 hb with hb | hb
    · have : IsAscii (lit "desc_") := by decide
      exact this b hb
    · exact hascii b hb
  have hval : camelCaseToUnderscore (lit "desc_" ++ c :: rest)
      = .ok (lit "desc_" ++ toSnakeSpec (c :: rest)) := by
    rw [camelCaseToUnderscore_ascii (by simp) hasciiV]
    have hlit : lit "desc_" = [100, 101, 115, 99, 95] := rfl
    have hc : ¬ (65 ≤ c ∧ c ≤ 90) := by simpa [isAsciiUpper] using hnotup
    simp [hlit, toSnakeSpec, asciiToLower, isAsciiUpper, hc]
  have hguard : isInjectionReg.MatchString (toSnakeSpec (c :: rest)) = false :=
    (matchString_eq_false_iff _).2 (toSnakeSpec_letters hletters)
  have hne : toSnakeSpec (c :: rest) ≠ [] := by simp [toSnakeSpec]
  have hkey : camelCaseToUnderscore (lit "orderKey") = .ok (lit "order_key") := rfl
  have hpre : strings.HasPrefix (lit "desc_" ++ toSnakeSpec (c :: rest)) (lit "desc_") = true := by
    have hlit : lit "desc_" = [100, 101, 115, 99, 95] := rfl
    simp [strings.HasPrefix, hlit, List.isPrefixOf]
  have hdrop : List.drop 5 (lit "desc_" ++ toSnakeSpec (c :: rest)) = toSnakeSpec (c :: rest) := by
    have hlit : lit "desc_" = [100, 101, 115, 99, 95] := rfl
    simp [hlit]
  have hdo : w.doWhere (lit "orderKey") (GoValue.str (lit "desc_" ++ c :: rest))
      = .ok { w with orderKey := some (toSnakeSpec (c :: rest)), desc := some true } := by
    have h1 : ¬ ((lit "orderKey").length = 0 ∨ strings.HasPrefix (lit "orderKey") (lit "#") = true) := by
      decide
    have h2 : ¬ (w.allowEmptyString < 1 ∧
        GoValue.str (lit "desc_" ++ c :: rest) = GoValue.str []) := by
      simp
    have h3 : ¬ (lit "order_key" = lit "page") := by decide
    have h4 : ¬ (lit "order_key" = lit "pagesize" ∨ lit "order_key" = lit "page_size") := by decide
    unfold WrapDB.doWhere
    rw [if_neg h1, if_neg h2, hkey]
    simp only [if_neg h3, if_neg h4, hval, hpre, if_true, hdrop, or_true]
  refine ⟨_, _, hdo, hcx, rfl, ?_⟩
  simp [WrapDB.tryOrder, WrapDB.call, hne, hguard]

/-- Witness for C6: the order key `desc_createdAt` orders by `created_at desc`. -/
theorem orderKey_desc_witness :
    ∃ w1, (NewWrapDB 100 0).doWhere (lit "orderKey") (GoValue.str (lit "desc_createdAt")) = .ok w1 ∧
      w1.tryOrder.Db = [DbCall.Order (lit "created_at desc")] := by
  obtain ⟨w1, cx, hdo, hcx, _, hord⟩ :=
    orderKey_desc (NewWrapDB 100 0) 99 (lit "reatedAt") (by decide) (by decide)
  have hcx2 : cx = lit "created_at" := by
    have h : camelCaseToUnderscore (99 :: lit "reatedAt") = .ok (lit "created_at") := rfl
    rw [h] at hcx
    exact (Except.ok.inj hcx).symm
  subst hcx2
  exact ⟨w1, hdo, hord⟩

/-! ## Map-mode query -/

/-- No `Order`, `Limit`, `Offset`, `Scan` or `Select` call: only `Where` and `Count`. -/
theorem only_where_count {c : DbCall} (h : c = DbCall.Count ∨ ∃ q a, c = DbCall.Where q a) :
    (∀ v, c ≠ DbCall.Order v) ∧ (∀ n, c ≠ DbCall.Limit n) ∧ (∀ n, c ≠ DbCall.Offset n) ∧
      c ≠ DbCall.Scan ∧ (∀ q, c ≠ DbCall.Select q) := by
  rcases h with rfl | ⟨q, a, rfl⟩ <;> simp

/-- One `doWhere` issues no call or one `Where` call. -/
theorem doWhere_Db {w w1 : WrapDB} {key : GoString} {val : GoValue}
    (h : w.doWhere key val = .ok w1) :
    w1.Db = w.Db ∨ ∃ q, w1.Db = w.Db ++ [DbCall.Where q val] := by
  unfold WrapDB.doWhere at h
  split_ifs at h with h1 h2
  · cases h; exact Or.inl rfl
  · cases h; exact Or.inl rfl
  · cases hk : camelCaseToUnderscore key with
    | error p => simp [hk] at h
    | ok k =>
      simp only [hk] at h
      split_ifs at h with h3 h4 h5
      · cases hr : reflectInt val with
        | error p => simp [hr] at h
        | ok n => simp only [hr, Except.ok.injEq] at h; subst h; exact Or.inl rfl
      · cases hr : reflectInt val with
        | error p => simp [hr] at h
        | ok n => simp only [hr, Except.ok.injEq] at h; subst h; exact Or.inl rfl
      · cases val with
        | str sv =>
          simp only at h
          cases hv : camelCaseToUnderscore sv with
          | error p => simp [hv] at h
          | ok value =>
            simp only [hv] at h
            split_ifs at h <;> (simp only [Except.ok.injEq] at h; subst h; exact Or.inl rfl)
        | _ => simp at h
      · simp only [Except.ok.injEq] at h
        obtain ⟨q, hq⟩ := doWhereDefault_call w k val
        subst h
        exact Or.inr ⟨q, by rw [hq]; rfl⟩

/-- The loop over the search map issues `Where` calls only. -/
theorem doWhereAll_Db (search : GoMap) :
    ∀ (w w1 : WrapDB) (r : Option Panic), w.doWhereAll search = (w1, r) →
      ∃ calls, w1.Db = w.Db ++ calls ∧ ∀ c ∈ calls, ∃ q a, c = DbCall.Where q a := by
  induction search with
  | nil =>
    intro w w1 r h
    simp only [WrapDB.doWhereAll, Prod.mk.injEq] at h
    exact ⟨[], by simp [h.1], by simp⟩
  | cons e rest ih =>
    intro w w1 r h
    obtain ⟨key, val⟩ := e
    simp only [WrapDB.doWhereAll] at h
    cases hd : w.doWhere key val with
    | error p =>
      simp only [hd, Prod.mk.injEq] at h
      exact ⟨[], by simp [h.1], by simp⟩
    | ok w2 =>
      simp only [hd] at h
      obtain ⟨calls, hcalls, hall⟩ := ih w2 w1 r h
      rcases doWhere_Db hd with h2 | ⟨q, h2⟩
      · exact ⟨calls, by rw [hcalls, h2], hall⟩
      · refine ⟨DbCall.Where q val :: calls, by rw [hcalls, h2]; simp, ?_⟩
        intro c hc
        rcases List.mem_cons.1 hc with rfl | hc
        · exact ⟨q, val, rfl⟩
        · exact hall c hc

/-- C8. In every `QueryWithMap` call in which the where-compilation completes and
the count query succeeds and returns 0, the calls issued are `Where` calls and
the `Count` only (no `Order`, `Limit`, `Offset`, `Scan` or `Select`), and the
call returns a nil error with `Total = 0`, `List` the empty non-nil list and
`Sum` the empty mapping. -/
theorem queryWithMap_zero_rows (w w1 : WrapDB) (db : Database) (search : GoMap)
    (hwhere : w.doWhereAll search = (w1, none))
    (hcount : db.count (w1.call DbCall.Count).Db = .ok 0) :
    (w.QueryWithMap db search).2 =
        Outcome.returned { Total := 0, List := some [], Sum := [] } none ∧
    ∃ calls, (w.QueryWithMap db search).1.Db = w.Db ++ calls ∧
      ∀ c ∈ calls, (∀ v, c ≠ DbCall.Order v) ∧ (∀ n, c ≠ DbCall.Limit n) ∧
        (∀ n, c ≠ DbCall.Offset n) ∧ c ≠ DbCall.Scan ∧ (∀ q, c ≠ DbCall.Select q) := by
  have hq : w.QueryWithMap db search =
      (w1.call DbCall.Count, Outcome.returned { Total := 0, List := some [], Sum := [] } none) := by
    simp [WrapDB.QueryWithMap, hwhere, hcount]
  obtain ⟨calls, hcalls, hall⟩ := doWhereAll_Db search w w1 none hwhere
  rw [hq]
  refine ⟨rfl, calls ++ [DbCall.Count], ?_, ?_⟩
  · simp [WrapDB.call, hcalls]
  · intro c hc
    apply only_where_count
    rcases List.mem_append.1 hc with hc | hc
    · exact Or.inr (hall c hc)
    · exact Or.inl (List.mem_singleton.1 hc)

/-- Witness for C8: the query `gt_age = 18`, `page = 1` on a database without rows. -/
theorem queryWithMap_zero_rows_witness :
    ((NewWrapDB 100 0).QueryWithMap emptyDatabase
        [(lit "gt_age", GoValue.int 18), (lit "page", GoValue.int 1)]).2 =
      Outcome.returned { Total := 0, List := some [], Sum := [] } none :=
  (queryWithMap_zero_rows (NewWrapDB 100 0)
    { (NewWrapDB 100 0).call (DbCall.Where (lit "`age` > ?") (GoValue.int 18)) with page := some 1 }
    emptyDatabase [(lit "gt_age", GoValue.int 18), (lit "page", GoValue.int 1)] rfl rfl).1

theorem tryOrder_Db (w : WrapDB) :
    ∃ calls, w.tryOrder.Db = w.Db ++ calls ∧ ∀ c ∈ calls, ∃ v, c = DbCall.Order v := by
  unfold WrapDB.tryOrder
  cases w.orderKey with
  | none => exact ⟨[], by simp, by simp⟩
  | some orderKey =>
    simp only
    by_cases hg : orderKey ≠ [] ∧ isInjectionReg.MatchString orderKey = false
    · rw [if_pos hg]
      exact ⟨[_], rfl, by simp⟩
    · rw [if_neg hg]
      exact ⟨[], by simp, by simp⟩

theorem tryOrder_page (w : WrapDB) : w.tryOrder.page = w.page := by
  unfold WrapDB.tryOrder
  cases w.orderKey with
  | none => rfl
  | some orderKey =>
    simp only
    by_cases hg : orderKey ≠ [] ∧ isInjectionReg.MatchString orderKey = false
    · rw [if_pos hg]; rfl
    · rw [if_neg hg]

theorem tryPage_page (w : WrapDB) : w.tryPage.page = w.page := by
  cases hps : w.pagesize with
  | none =>
    cases hp : w.page with
    | none => by_cases hm : w.maxPagesize > 0 <;> simp [WrapDB.tryPage, WrapDB.call, hps, hp, hm]
    | some p => by_cases hm : w.maxPagesize > 0 <;> simp [WrapDB.tryPage, WrapDB.call, hps, hp, hm]
  | some s =>
    cases hp : w.page with
    | none =>
      by_cases hs : s > w.maxPagesize <;> by_cases hm : w.maxPagesize > 0 <;>
        by_cases hs0 : s > 0 <;> simp [WrapDB.tryPage, WrapDB.call, hps, hp, hm, hs, hs0]
    | some p =>
      by_cases hs : s > w.maxPagesize <;> by_cases hm : w.maxPagesize > 0 <;>
        by_cases hs0 : s > 0 <;> simp [WrapDB.tryPage, WrapDB.call, hps, hp, hm, hs, hs0]

/-- The calls from `Count` to the row `Scan` contain no `Select`. -/
theorem fetch_no_select (w1 : WrapDB) :
    ∃ calls, (((w1.call DbCall.Count).tryOrder.tryPage).call DbCall.Scan).Db = w1.Db ++ calls ∧
      ∀ q, DbCall.Select q ∉ calls := by
  obtain ⟨oc, hoc, hocall⟩ := tryOrder_Db (w1.call DbCall.Count)
  have hpage := tryPage_Db (w1.call DbCall.Count).tryOrder
  have hdb : (((w1.call DbCall.Count).tryOrder.tryPage).call DbCall.Scan).Db =
      (w1.call DbCall.Count).tryOrder.tryPage.Db ++ [DbCall.Scan] := rfl
  have hcount : (w1.call DbCall.Count).Db = w1.Db ++ [DbCall.Count] := rfl
  rw [hdb, hpage, hoc, hcount]
  refine ⟨[DbCall.Count] ++ oc ++
      (if (w1.call DbCall.Count).tryOrder.effectivePagesize > 0
        then [DbCall.Limit (w1.call DbCall.Count).tryOrder.effectivePagesize] else []) ++
      (match (w1.call DbCall.Count).tryOrder.page with
        | some p => [DbCall.Offset
            (wrapInt ((w1.call DbCall.Count).tryOrder.effectivePagesize * wrapInt (p - 1)))]
        | none => []) ++ [DbCall.Scan], by simp only [List.append_assoc], ?_⟩
  intro q hq
  rcases List.mem_append.1 hq with hq | hq
  · rcases List.mem_append.1 hq with hq | hq
    · rcases List.mem_append.1 hq with hq | hq
      · rcases List.mem_append.1 hq with hq | hq
        · simp at hq
        · obtain ⟨v, hv⟩ := hocall _ hq
          cases hv
      · split_ifs at hq <;> simp at hq
    · cases hp : (w1.call DbCall.Count).tryOrder.page with
      | none => simp [hp] at hq
      | some p => simp [hp] at hq
  · simp at hq

/-- A name that fails the guard stops the collection of the sum fields: the loop
ends with the error or, if an empty name comes first, with a panic. -/
theorem collectSumFields_bad (l : List GoString) (bad : GoString) (hmem : bad ∈ l)
    (hbad : isInjectionReg.MatchString bad = true) :
    ∀ acc, ∀ fs, collectSumFields acc l ≠ SumFieldsResult.fields fs := by
  induction l with
  | nil => simp at hmem
  | cons x l ih =>
    intro acc fs
    unfold collectSumFields
    by_cases hx : isInjectionReg.MatchString x = true
    · simp [hx]
    · rw [if_neg hx]
      have hmem2 : bad ∈ l := by
        rcases List.mem_cons.1 hmem with h | h
        · exact absurd (h ▸ hbad) hx
        · exact h
      cases hc : camelCaseToUnderscore x with
      | error p => simp
      | ok name => exact ih hmem2 _ fs

/-- The first name that fails the guard is the one reported, when the names before
it are non-empty. -/
theorem collectSumFields_first (pre post : List GoString) (bad : GoString)
    (hpre : ∀ x ∈ pre, isInjectionReg.MatchString x = false ∧ x ≠ [])
    (hbad : isInjectionReg.MatchString bad = true) :
    ∀ acc, collectSumFields acc (pre ++ bad :: post) = SumFieldsResult.illegal bad := by
  induction pre with
  | nil => intro acc; simp [collectSumFields, hbad]
  | cons x pre ih =>
    intro acc
    obtain ⟨hx, hxne⟩ := hpre x (List.mem_cons_self x pre)
    have ih1 := ih (fun y hy => hpre y (List.mem_cons_of_mem x hy))
    cases x with
    | nil => exact absurd rfl hxne
    | cons b bs =>
      simp only [List.cons_append, collectSumFields, hx, Bool.false_eq_true, if_false,
        camelCaseToUnderscore, List.append_eq, ih1]

/-- With a rejected name in the `#sum` list the sum phase issues no call. -/
theorem sumPhase_bad (w : WrapDB) (db : Database) (search : GoMap) (gr : GeneralResult)
    (l : List GoString) (bad : GoString)
    (hsum : GoMap.index search SumFieldsKey = GoValue.strings (some l))
    (hmem : bad ∈ l) (hbad : isInjectionReg.MatchString bad = true) :
    (w.sumPhase db search gr).1 = w := by
  unfold WrapDB.sumPhase
  simp only [hsum]
  cases hc : collectSumFields [] l with
  | fields fs => exact absurd hc (collectSumFields_bad l bad hmem hbad [] fs)
  | illegal x => rfl
  | panicked p => rfl

/-- C7 (counterexample). With the sum-field name `age; DROP TABLE x`, which the
guard rejects, on a database with one matching row: without a page the call
returns a nil error after issuing `Count`, `Limit` and `Scan`; with page 1 it
returns the injection error, after issuing `Count`, `Limit`, `Offset` and `Scan`. -/
theorem sumField_rejected_after_count_and_scan :
    isInjectionReg.MatchString (lit "age; DROP TABLE x") = true ∧
    (NewWrapDB 100 0).QueryWithMap oneRowDatabase
        [(SumFieldsKey, GoValue.strings (some [lit "age; DROP TABLE x"]))] =
      ({ NewWrapDB 100 0 with
          Db := [DbCall.Count, DbCall.Limit 100, DbCall.Scan], pagesize := some 100 },
        Outcome.returned
          { Total := 1, List := some [[(lit "age", GoValue.int 30)]], Sum := [] } none) ∧
    (NewWrapDB 100 0).QueryWithMap oneRowDatabase
        [(lit "page", GoValue.int 1),
         (SumFieldsKey, GoValue.strings (some [lit "age; DROP TABLE x"]))] =
      ({ NewWrapDB 100 0 with
          Db := [DbCall.Count, DbCall.Limit 100, DbCall.Offset 0, DbCall.Scan],
          page := some 1, pagesize := some 100 },
        Outcome.returned
          { Total := 1, List := some [[(lit "age", GoValue.int 30)]], Sum := [] }
          (some (GoError.illegalSumField (lit "age; DROP TABLE x")))) :=
  ⟨rfl, rfl, rfl⟩

/-- C7 (amended). For every `QueryWithMap` call whose `#sum` list contains a name
that fails the field guard, no sum `Select` is issued; and when the call reaches
the sum phase (the where-compilation completes, the count succeeds with a
positive total, the row scan succeeds and the page is 1) and the names before
the first rejected one are non-empty, the call returns the injection error for
that name. The count and the row scan are issued before the names are checked. -/
theorem sumField_injection (w : WrapDB) (db : Database) (search : GoMap)
    (pre post : List GoString) (bad : GoString)
    (hsum : GoMap.index search SumFieldsKey = GoValue.strings (some (pre ++ bad :: post)))
    (hbad : isInjectionReg.MatchString bad = true) :
    (∃ calls, (w.QueryWithMap db search).1.Db = w.Db ++ calls ∧
      ∀ q, DbCall.Select q ∉ calls) ∧
    (∀ w1 total rows, w.doWhereAll search = (w1, none) →
      db.count (w1.call DbCall.Count).Db = .ok total → 0 < total →
      db.scanList (((w1.call DbCall.Count).tryOrder.tryPage).call DbCall.Scan).Db = .ok rows →
      w1.page = some 1 →
      (∀ x ∈ pre, isInjectionReg.MatchString x = false ∧ x ≠ []) →
      ∃ gr, (w.QueryWithMap db search).2 =
        Outcome.returned gr (some (GoError.illegalSumField bad))) := by
  have hmem : bad ∈ pre ++ bad :: post := by simp
  constructor
  · cases hw : w.doWhereAll search with
    | mk w1 r =>
      obtain ⟨wheres, hwheres, hwall⟩ := doWhereAll_Db search w w1 r hw
      have hnosel : ∀ q, DbCall.Select q ∉ wheres := by
        intro q hq
        obtain ⟨q2, a, h⟩ := hwall _ hq
        cases h
      obtain ⟨fetch, hfetch, hfall⟩ := fetch_no_select w1
      have hA : ∃ calls, w1.Db = w.Db ++ calls ∧ ∀ q, DbCall.Select q ∉ calls :=
        ⟨wheres, hwheres, hnosel⟩
      have hB : ∃ calls, (w1.call DbCall.Count).Db = w.Db ++ calls ∧
          ∀ q, DbCall.Select q ∉ calls := by
        refine ⟨wheres ++ [DbCall.Count], by simp [WrapDB.call, hwheres], ?_⟩
        intro q hq
        rcases List.mem_append.1 hq with hq | hq
        · exact hnosel q hq
        · simp at hq
      have hC : ∃ calls, (((w1.call DbCall.Count).tryOrder.tryPage).call DbCall.Scan).Db =
          w.Db ++ calls ∧ ∀ q, DbCall.Select q ∉ calls := by
        refine ⟨wheres ++ fetch, by rw [hfetch, hwheres, List.append_assoc], ?_⟩
        intro q hq
        rcases List.mem_append.1 hq with hq | hq
        · exact hnosel q hq
        · exact hfall q hq
      cases r with
      | some p => simpa [WrapDB.QueryWithMap, hw] using hA
      | none =>
        cases hc : db.count (w1.call DbCall.Count).Db with
        | error e => simpa [WrapDB.QueryWithMap, hw, hc] using hB
        | ok total =>
          by_cases ht : total > 0
          · cases hs : db.scanList
                (((w1.call DbCall.Count).tryOrder.tryPage).call DbCall.Scan).Db with
            | error e => simpa [WrapDB.QueryWithMap, hw, hc, ht, hs] using hC
            | ok rows =>
              by_cases hp : (((w1.call DbCall.Count).tryOrder.tryPage).call DbCall.Scan).page
                  = some 1
              · simp only [WrapDB.QueryWithMap, hw, hc, ht, hs, hp, if_true]
                rw [sumPhase_bad _ db search _ _ bad hsum hmem hbad]
                exact hC
              · simpa [WrapDB.QueryWithMap, hw, hc, ht, hs, hp] using hC
          · simpa [WrapDB.QueryWithMap, hw, hc, ht] using hB
  · intro w1 total rows hw hc ht hs hp hpre
    have hp2 : (((w1.call DbCall.Count).tryOrder.tryPage).call DbCall.Scan).page = some 1 := by
      show (WrapDB.tryPage (WrapDB.tryOrder (w1.call DbCall.Count))).page = some 1
      rw [tryPage_page, tryOrder_page]
      exact hp
    have ht2 : total > 0 := ht
    simp only [WrapDB.QueryWithMap, hw, hc, ht2, hs, hp2, if_true, WrapDB.sumPhase, hsum,
      collectSumFields_first pre post bad hpre hbad []]
    exact ⟨_, rfl⟩

/-- Witness for C7 (amended): page 1 and the sum-field name `age; DROP TABLE x` on
a database with one matching row. -/
theorem sumField_injection_witness :
    ∃ gr, ((NewWrapDB 100 0).QueryWithMap oneRowDatabase
        [(lit "page", GoValue.int 1),
         (SumFieldsKey, GoValue.strings (some [lit "age; DROP TABLE x"]))]).2 =
      Outcome.returned gr (some (GoError.illegalSumField (lit "age; DROP TABLE x"))) :=
  (sumField_injection (NewWrapDB 100 0) oneRowDatabase
    [(lit "page", GoValue.int 1),
     (SumFieldsKey, GoValue.strings (some [lit "age; DROP TABLE x"]))]
    [] [] (lit "age; DROP TABLE x") rfl rfl).2
    { NewWrapDB 100 0 with page := some 1 } 1 [[(lit "age", GoValue.int 30)]]
    rfl rfl (by decide) rfl rfl (by simp)

/-! ## Result projector -/

/-- C11 (the code at the failing input). The row key `user_name` is projected to
`userName`, not to the UpperCamelCase form `UserName`: the first word keeps its
lowercase initial, both in `underscoreToUpperCamelCase` and in the list returned
by `QueryWithMap`. -/
theorem projector_keeps_first_initial :
    underscoreToUpperCamelCase (lit "user_name") = lit "userName" ∧
    lit "userName" ≠ lit "UserName" ∧
    ((NewWrapDB 100 0).QueryWithMap userRowDatabase []).2 =
      Outcome.returned
        { Total := 1, List := some [[(lit "userName", GoValue.str (lit "ann"))]], Sum := [] }
        none :=
  ⟨rfl, by decide, rfl⟩

/-! ## Unguarded column names -/

/-- A key that is not skipped and not a directive reaches the `default` case. -/
theorem doWhere_default (w : WrapDB) (key k : GoString) (val : GoValue)
    (hkey : key ≠ []) (hmark : strings.HasPrefix key (lit "#") = false)
    (hval : ¬ (w.allowEmptyString < 1 ∧ val = GoValue.str []))
    (hk : camelCaseToUnderscore key = .ok k) (hdir : ¬ IsDirective k) :
    w.doWhere key val = .ok (w.doWhereDefault k val) := by
  have hlen : ¬ (key.length = 0) := fun h => hkey (List.length_eq_zero.1 h)
  simp only [IsDirective, not_or] at hdir
  obtain ⟨h1, h2, h3, h4, h5⟩ := hdir
  simp only [WrapDB.doWhere, hlen, hmark, hval, hk, h1, h2, h3, h4, h5, false_or, if_false,
    Bool.false_eq_true, or_self]

/-- C18. There is a key, with a back quote, spaces and a digit, for which
`doWhere` issues a `Where` call whose fragment interpolates a column name that
fails the field guard; the value is the bound parameter. The fragment reads:
back quote, `age`, back quote, ` = 1 or `, back quote, `x`, back quote, ` = ?`. -/
theorem where_column_not_guarded :
    ∃ (key col : GoString) (val : GoValue),
      isInjectionReg.MatchString col = true ∧
      ∀ w : WrapDB,
        w.doWhere key val = .ok (w.call (DbCall.Where (lit "`" ++ col ++ lit "` = ?") val)) := by
  refine ⟨lit "age` = 1 or `x", lit "age` = 1 or `x", GoValue.int 18, by decide, ?_⟩
  intro w
  rw [doWhere_default w (lit "age` = 1 or `x") (lit "age` = 1 or `x") (GoValue.int 18)
    (by decide) (by decide) (by simp) rfl (by decide)]
  rw [doWhereDefault_no_underscore w _ _ (by decide)]

/-! ## Order clause -/

/-- C20. For every state, `tryOrder` leaves page, pagesize, orderKey and desc
unchanged and issues at most one `Order` call; the clause of that call is the
order key, a non-empty string of ASCII letters and underscores, alone or
followed by ` desc`. When the order key is unset, empty or fails the field guard
no call is issued. -/
theorem tryOrder_safe (w : WrapDB) :
    (w.tryOrder.page = w.page ∧ w.tryOrder.pagesize = w.pagesize ∧
      w.tryOrder.orderKey = w.orderKey ∧ w.tryOrder.desc = w.desc) ∧
    (w.tryOrder.Db = w.Db ∨
      ∃ k, w.orderKey = some k ∧ k ≠ [] ∧ (∀ b ∈ k, isAsciiLetter b = true ∨ b = 95) ∧
        (w.tryOrder.Db = w.Db ++ [DbCall.Order k] ∨
          w.tryOrder.Db = w.Db ++ [DbCall.Order (k ++ lit " desc")])) ∧
    ((w.orderKey = none ∨ w.orderKey = some [] ∨
        ∃ k, w.orderKey = some k ∧ isInjectionReg.MatchString k = true) →
      w.tryOrder.Db = w.Db) := by
  unfold WrapDB.tryOrder
  cases hk : w.orderKey with
  | none => simp [hk]
  | some k =>
    simp only
    by_cases hg : k ≠ [] ∧ isInjectionReg.MatchString k = false
    · rw [if_pos hg]
      refine ⟨⟨rfl, rfl, hk, rfl⟩, Or.inr ⟨k, rfl, hg.1, (matchString_eq_false_iff k).1 hg.2, ?_⟩, ?_⟩
      · by_cases hd : w.desc = some true
        · exact Or.inr (by simp [WrapDB.call, hd])
        · exact Or.inl (by simp [WrapDB.call, hd])
      · rintro (h | h | ⟨k2, h, hbad⟩)
        · cases h
        · exact absurd (Option.some.inj h) hg.1
        · have : k = k2 := Option.some.inj h
          subst this
          rw [hg.2] at hbad
          cases hbad
    · rw [if_neg hg]
      exact ⟨⟨rfl, rfl, hk, rfl⟩, Or.inl rfl, fun _ => rfl⟩

/-- Witness for C20: the order key `created_at` with the descending flag gives the
single clause `created_at desc`; the key `id;drop` gives no call. -/
theorem tryOrder_safe_witness :
    (WrapDB.tryOrder
      { NewWrapDB 100 0 with orderKey := some (lit "created_at"), desc := some true }).Db =
        [DbCall.Order (lit "created_at desc")] ∧
    (WrapDB.tryOrder { NewWrapDB 100 0 with orderKey := some (lit "id;drop") }).Db = [] :=
  ⟨rfl, (tryOrder_safe { NewWrapDB 100 0 with orderKey := some (lit "id;drop") }).2.2
    (Or.inr (Or.inr ⟨lit "id;drop", rfl, by decide⟩))⟩

/-! ## Structure walker -/

/-- A struct with a nil pointer field makes the field loop panic: at that field,
unless an earlier field panicked already. -/
theorem doDeepWhereFields_nil_pointer (fields : List (GoString × reflect.Value))
    (name : GoString) (hmem : (name, reflect.Value.Pointer none) ∈ fields) :
    ∀ w : WrapDB, (w.doDeepWhereFields fields).2 ≠ none := by
  induction fields with
  | nil => simp at hmem
  | cons f rest ih =>
    intro w
    obtain ⟨ki, vi⟩ := f
    rcases List.mem_cons.1 hmem with h | h
    · cases h
      simp [WrapDB.doDeepWhereFields, WrapDB.doDeepWhere]
    · have ih1 := ih h
      rw [WrapDB.doDeepWhereFields.eq_def]
      simp only
      split
      · exact ih1 _
      · simp

/-- C14 (the code at the failing input). The struct `{Age: nil, Name: "ann"}` with
the nil pointer field `Age` makes `doDeepWhere` panic at that field (`Interface`
on the zero Value), so the field `Name` is never processed; without the nil
field the walk issues the `Where` call for `name`. A nil pointer passed as the
value itself is skipped. -/
theorem walker_panics_on_nil_field :
    (NewWrapDB 100 0).doDeepWhere []
        (reflect.Value.Struct [(lit "Age", reflect.Value.Pointer none),
          (lit "Name", reflect.Value.Other (GoValue.str (lit "ann")))]) =
      (NewWrapDB 100 0, some Panic.zeroValue) ∧
    (NewWrapDB 100 0).doDeepWhere []
        (reflect.Value.Struct [(lit "Name", reflect.Value.Other (GoValue.str (lit "ann")))]) =
      ((NewWrapDB 100 0).call (DbCall.Where (lit "`name` = ?") (GoValue.str (lit "ann"))),
        none) ∧
    (NewWrapDB 100 0).doDeepWhere [] (reflect.Value.Pointer none) = (NewWrapDB 100 0, none) := by
  refine ⟨?_, ?_, ?_⟩
  · simp only [WrapDB.doDeepWhere, WrapDB.doDeepWhereFields]
  · simp only [WrapDB.doDeepWhere, WrapDB.doDeepWhereFields]
    rfl
  · simp only [WrapDB.doDeepWhere]

/-! ## Struct-mode query -/

theorem walk_pageOneSearch :
    (NewWrapDB 100 0).doDeepWhere [] pageOneSearch =
      ({ NewWrapDB 100 0 with page := some 1 }, none) := by
  simp only [pageOneSearch, WrapDB.doDeepWhere, WrapDB.doDeepWhereFields]
  rfl

/-- C15 (the code at the failing input). `QueryWithStruct` with page 1, a list, a
total and the sum destination `&struct{ Amount int }{}` on a database whose sum
query fails: the sum `Select` and `Scan` are issued, the database reports error
7 for them, and the call returns the nil error. -/
theorem queryWithStruct_drops_sum_error :
    (NewWrapDB 100 0).QueryWithStruct failingSumDatabase (some pageOneSearch) (some none)
        (some amountSum) (some 0) =
      ({ NewWrapDB 100 0 with
          Db := [DbCall.Count, DbCall.Limit 100, DbCall.Offset 0, DbCall.Scan,
            DbCall.Select (lit "sum(`amount`) as `amount`"), DbCall.Scan]
          page := some 1
          pagesize := some 100 },
        StructOutcome.returned
          { list := some (some [[(lit "amount", GoValue.int 30)]]), sum := none,
            total := some 1, err := none }) ∧
    failingSumDatabase.scanSum
        [DbCall.Count, DbCall.Limit 100, DbCall.Offset 0, DbCall.Scan,
          DbCall.Select (lit "sum(`amount`) as `amount`"), DbCall.Scan] =
      .error (GoError.db 7) := by
  refine ⟨?_, rfl⟩
  simp only [WrapDB.QueryWithStruct, WrapDB.walkSearch, walk_pageOneSearch]
  rfl

/-- C16 (the code at the failing input). `QueryWithStruct` with page 1 and the sum
destination `&struct{ Amount2 int }{}` issues the sum `Select` with the column
name `amount2`, which fails the field guard. -/
theorem queryWithStruct_sum_column_not_guarded :
    ((NewWrapDB 100 0).QueryWithStruct oneRowDatabase (some pageOneSearch) none
        (some amount2Sum) none).1.Db =
      [DbCall.Limit 100, DbCall.Offset 0,
        DbCall.Select (lit "sum(`amount2`) as `amount2`"), DbCall.Scan] ∧
    isInjectionReg.MatchString (lit "amount2") = true := by
  refine ⟨?_, by decide⟩
  simp only [WrapDB.QueryWithStruct, WrapDB.walkSearch, walk_pageOneSearch]
  rfl

/-! ## Reverse round trip -/

theorem lower_facts {b : Nat} (h : isAsciiLower b = true) :
    b < 128 ∧ b ≠ 95 ∧ isAsciiUpper b = false ∧ asciiToLower b = b ∧
      isAsciiUpper (asciiToUpper b) = true ∧ asciiToLower (asciiToUpper b) = b ∧
      asciiToUpper b ≠ 95 ∧ asciiToUpper b < 128 := by
  have hr : 97 ≤ b ∧ b ≤ 122 := by simpa [isAsciiLower] using h
  have hup : asciiToUpper b = b - 32 := by simp [asciiToUpper, h]
  have hnu : isAsciiUpper b = false := by
    simp only [isAsciiUpper, decide_eq_false_iff_not]; omega
  have hu2 : isAsciiUpper (b - 32) = true := by
    simp only [isAsciiUpper, decide_eq_true_eq]; omega
  refine ⟨by omega, by omega, hnu, by simp [asciiToLower, hnu], by rw [hup]; exact hu2, ?_,
    by rw [hup]; omega, by rw [hup]; omega⟩
  rw [hup]
  simp only [asciiToLower, hu2, if_true]
  omega

/-- The loop of `underscoreToUpperCamelCase` copies lowercase letters. -/
theorem upperLoop_lower (w : GoString) (hw : ∀ b ∈ w, isAsciiLower b = true) :
    ∀ (output rest : List Nat),
      underscoreToUpperCamelCase.loop output false (w ++ rest) =
        underscoreToUpperCamelCase.loop (output ++ w) false rest := by
  induction w with
  | nil => intro output rest; simp
  | cons b w ih =>
    intro output rest
    have hb := lower_facts (hw b (List.mem_cons_self b w))
    have ih1 := ih (fun x hx => hw x (List.mem_cons_of_mem b hx))
    simp only [List.cons_append, underscoreToUpperCamelCase.loop, if_neg hb.2.1,
      Bool.false_eq_true, if_false, List.append_eq, ih1]
    simp

/-- The loop of `underscoreToUpperCamelCase` on the words after the first one. -/
theorem upperLoop_words (ws : List GoString) (hws : ∀ v ∈ ws, IsLowerWord v) :
    ∀ output : List Nat,
      underscoreToUpperCamelCase.loop output false (ws.flatMap (fun v => 95 :: v)) =
        output ++ ws.flatMap capitalize := by
  induction ws with
  | nil => intro output; simp [underscoreToUpperCamelCase.loop]
  | cons v ws ih =>
    intro output
    obtain ⟨hne, hlow⟩ := hws v (List.mem_cons_self v ws)
    have ih1 := ih (fun x hx => hws x (List.mem_cons_of_mem v hx))
    cases v with
    | nil => exact absurd rfl hne
    | cons c r =>
      have hc := lower_facts (hlow c (List.mem_cons_self c r))
      have hr : ∀ b ∈ r, isAsciiLower b = true := fun x hx => hlow x (List.mem_cons_of_mem c hx)
      simp only [List.flatMap_cons, List.cons_append]
      simp only [underscoreToUpperCamelCase.loop, if_neg hc.2.1, if_true]
      rw [upperLoop_lower r hr, ih1, unicode_ToUpper_ascii hc.1]
      simp only [capitalize, List.append_assoc, List.singleton_append, List.cons_append,
        List.nil_append]

/-- The projected form of a snake_case name: the first word as it is, every later
word capitalised. -/
theorem underscoreToUpperCamelCase_snakeJoin (w : GoString) (ws : List GoString)
    (hw : IsLowerWord w) (hws : ∀ v ∈ ws, IsLowerWord v) :
    underscoreToUpperCamelCase (snakeJoin (w :: ws)) = w ++ ws.flatMap capitalize := by
  have hascii : ∀ x ∈ w ++ ws.flatMap capitalize, x < 128 := by
    intro x hx
    rcases List.mem_append.1 hx with hx | hx
    · exact (lower_facts (hw.2 x hx)).1
    · obtain ⟨v, hv, hxv⟩ := List.mem_flatMap.1 hx
      obtain ⟨_, hlow⟩ := hws v hv
      cases v with
      | nil => simp [capitalize] at hxv
      | cons c r =>
        simp only [capitalize, List.mem_cons] at hxv
        rcases hxv with rfl | hxv
        · exact (lower_facts (hlow c (List.mem_cons_self c r))).2.2.2.2.2.2.2
        · exact (lower_facts (hlow x (List.mem_cons_of_mem c hxv))).1
  simp only [underscoreToUpperCamelCase, snakeJoin, upperLoop_lower w hw.2,
    upperLoop_words ws hws, List.nil_append]
  exact runesToString_ascii hascii

theorem flatMap_snake_lower (r : GoString) (hr : ∀ b ∈ r, isAsciiLower b = true) :
    r.flatMap (fun d => if isAsciiUpper d = true then [95, asciiToLower d] else [asciiToLower d])
      = r := by
  induction r with
  | nil => rfl
  | cons b r ih =>
    have hb := lower_facts (hr b (List.mem_cons_self b r))
    simp only [List.flatMap_cons, hb.2.2.1, Bool.false_eq_true, if_false, hb.2.2.2.1,
      ih (fun x hx => hr x (List.mem_cons_of_mem b hx))]
    rfl

theorem flatMap_snake_capitalized (ws : List GoString) (hws : ∀ v ∈ ws, IsLowerWord v) :
    (ws.flatMap capitalize).flatMap
        (fun d => if isAsciiUpper d = true then [95, asciiToLower d] else [asciiToLower d])
      = ws.flatMap (fun v => 95 :: v) := by
  induction ws with
  | nil => rfl
  | cons v ws ih =>
    obtain ⟨hne, hlow⟩ := hws v (List.mem_cons_self v ws)
    cases v with
    | nil => exact absurd rfl hne
    | cons c r =>
      have hc := lower_facts (hlow c (List.mem_cons_self c r))
      have hr : ∀ b ∈ r, isAsciiLower b = true := fun x hx => hlow x (List.mem_cons_of_mem c hx)
      simp only [List.flatMap_cons, capitalize, List.flatMap_append, List.cons_append,
        hc.2.2.2.2.1, if_true, hc.2.2.2.2.2.1, flatMap_snake_lower r hr,
        ih (fun x hx => hws x (List.mem_cons_of_mem (c :: r) hx))]
      simp

/-- C19. For every snake_case name `s` made of one or more non-empty words of
lowercase ASCII letters joined by single underscores,
`camelCaseToUnderscore(underscoreToUpperCamelCase(s)) = s`. -/
theorem reverse_roundTrip (w : GoString) (ws : List GoString) (hw : IsLowerWord w)
    (hws : ∀ v ∈ ws, IsLowerWord v) :
    camelCaseToUnderscore (underscoreToUpperCamelCase (snakeJoin (w :: ws))) =
      .ok (snakeJoin (w :: ws)) := by
  rw [underscoreToUpperCamelCase_snakeJoin w ws hw hws]
  obtain ⟨hne, hlow⟩ := hw
  cases w with
  | nil => exact absurd rfl hne
  | cons c r =>
    have hc := lower_facts (hlow c (List.mem_cons_self c r))
    have hr : ∀ b ∈ r, isAsciiLower b = true := fun x hx => hlow x (List.mem_cons_of_mem c hx)
    have hascii : IsAscii ((c :: r) ++ ws.flatMap capitalize) := by
      intro x hx
      rcases List.mem_append.1 hx with hx | hx
      · exact (lower_facts (hlow x hx)).1
      · obtain ⟨v, hv, hxv⟩ := List.mem_flatMap.1 hx
        obtain ⟨_, hvl⟩ := hws v hv
        cases v with
        | nil => simp [capitalize] at hxv
        | cons d t =>
          simp only [capitalize, List.mem_cons] at hxv
          rcases hxv with rfl | hxv
          · exact (lower_facts (hvl d (List.mem_cons_self d t))).2.2.2.2.2.2.2
          · exact (lower_facts (hvl x (List.mem_cons_of_mem d hxv))).1
    rw [camelCaseToUnderscore_ascii (by simp) hascii]
    simp only [List.cons_append, toSnakeSpec, snakeJoin, hc.2.2.2.1, List.flatMap_append,
      flatMap_snake_lower r hr, flatMap_snake_capitalized ws hws]

/-- Witness for C19: the words `user`, `name` give `user_name`, which comes back. -/
theorem reverse_roundTrip_witness :
    camelCaseToUnderscore (underscoreToUpperCamelCase (lit "user_name")) =
      .ok (lit "user_name") :=
  reverse_roundTrip (lit "user") [lit "name"] (by decide) (by decide)

/-! ## Skip, directive, predicate -/

/-- C12. For every key, value and state exactly one of three cases applies.
Skip: the key is empty, or starts with `#`, or empty strings are not allowed and
the value is the empty string; then `doWhere` returns the state unchanged.
Directive: otherwise, when `k = camelCaseToUnderscore(key)` is `page` (resp.
`pagesize` or `page_size`) and the value is an integer, only `page` (resp.
`pagesize`) changes; when `k` is `orderkey` or `order_key` and the value is a
non-empty string, only `orderKey` and `desc` change; no call is issued.
Predicate: otherwise exactly one `Where` call is issued and nothing else changes. -/
theorem doWhere_trichotomy (w : WrapDB) (key : GoString) (val : GoValue) :
    ((key = [] ∨ strings.HasPrefix key (lit "#") = true ∨
        (w.allowEmptyString < 1 ∧ val = GoValue.str [])) → w.doWhere key val = .ok w) ∧
    (¬ (key = [] ∨ strings.HasPrefix key (lit "#") = true ∨
        (w.allowEmptyString < 1 ∧ val = GoValue.str [])) →
      ∃ k, camelCaseToUnderscore key = .ok k ∧
        (k = lit "page" →
          (∀ n : Int, val = GoValue.int n →
            w.doWhere key val = .ok { w with page := some (wrapInt n) }) ∧
          (∀ n : Nat, val = GoValue.uint n →
            w.doWhere key val = .ok { w with page := some (wrapInt (n : Int)) })) ∧
        ((k = lit "pagesize" ∨ k = lit "page_size") →
          (∀ n : Int, val = GoValue.int n →
            w.doWhere key val = .ok { w with pagesize := some (wrapInt n) }) ∧
          (∀ n : Nat, val = GoValue.uint n →
            w.doWhere key val = .ok { w with pagesize := some (wrapInt (n : Int)) })) ∧
        ((k = lit "orderkey" ∨ k = lit "order_key") →
          ∀ s, val = GoValue.str s → s ≠ [] →
            ∃ o d, w.doWhere key val = .ok { w with orderKey := some o, desc := d } ∧
              (d = w.desc ∨ d = some true)) ∧
        (¬ IsDirective k → ∃ q, w.doWhere key val = .ok (w.call (DbCall.Where q val)))) := by
  constructor
  · rintro (h | h | h)
    · simp [WrapDB.doWhere, h]
    · simp [WrapDB.doWhere, h]
    · unfold WrapDB.doWhere
      split_ifs <;> rfl
  · intro hskip
    simp only [not_or] at hskip
    obtain ⟨hkey, hmark, hval⟩ := hskip
    have hmark2 : strings.HasPrefix key (lit "#") = false := by simpa using hmark
    have hlen : ¬ (key.length = 0) := fun h => hkey (List.length_eq_zero.1 h)
    cases key with
    | nil => exact absurd rfl hkey
    | cons c rest =>
      refine ⟨_, rfl, ?_, ?_, ?_, ?_⟩
      · intro hk
        have hk2 : camelCaseToUnderscore (c :: rest) = .ok (lit "page") := by
          rw [← hk]; rfl
        constructor
        · intro n hn
          subst hn
          simp only [WrapDB.doWhere, hlen, hmark2, hval, hk2, false_or, if_false,
            Bool.false_eq_true, if_true, reflectInt]
        · intro n hn
          subst hn
          simp only [WrapDB.doWhere, hlen, hmark2, hval, hk2, false_or, if_false,
            Bool.false_eq_true, if_true, reflectInt]
      · intro hk
        have h1 : ¬ (camelCaseToUnderscore.loop [unicode.ToLower c] rest |> runesToString)
            = lit "page" := by
          rcases hk with hk | hk <;> rw [hk] <;> decide
        have hk2 : camelCaseToUnderscore (c :: rest) =
            .ok (runesToString (camelCaseToUnderscore.loop [unicode.ToLower c] rest)) := rfl
        constructor
        · intro n hn
          subst hn
          simp only [WrapDB.doWhere, hlen, hmark2, hval, hk2, false_or, if_false,
            Bool.false_eq_true, if_neg h1, if_pos hk, reflectInt]
        · intro n hn
          subst hn
          simp only [WrapDB.doWhere, hlen, hmark2, hval, hk2, false_or, if_false,
            Bool.false_eq_true, if_neg h1, if_pos hk, reflectInt]
      · intro hk s hs hsne
        have h1 : ¬ (camelCaseToUnderscore.loop [unicode.ToLower c] rest |> runesToString)
            = lit "page" := by
          rcases hk with hk | hk <;> rw [hk] <;> decide
        have h2 : ¬ ((camelCaseToUnderscore.loop [unicode.ToLower c] rest |> runesToString)
            = lit "pagesize" ∨
            (camelCaseToUnderscore.loop [unicode.ToLower c] rest |> runesToString)
            = lit "page_size") := by
          rcases hk with hk | hk <;> rw [hk] <;> decide
        have hk2 : camelCaseToUnderscore (c :: rest) =
            .ok (runesToString (camelCaseToUnderscore.loop [unicode.ToLower c] rest)) := rfl
        subst hs
        cases s with
        | nil => exact absurd rfl hsne
        | cons d t =>
          have hv : camelCaseToUnderscore (d :: t) =
              .ok (runesToString (camelCaseToUnderscore.loop [unicode.ToLower d] t)) := rfl
          simp only [WrapDB.doWhere, hlen, hmark2, hval, hk2, false_or, if_false,
            Bool.false_eq_true, if_neg h1, if_neg h2, if_pos hk, hv]
          split_ifs
          · exact ⟨_, _, rfl, Or.inr rfl⟩
          · exact ⟨_, _, rfl, Or.inl rfl⟩
          · exact ⟨_, _, rfl, Or.inl rfl⟩
      · intro hdir
        obtain ⟨q, hq⟩ := doWhereDefault_call w
          (runesToString (camelCaseToUnderscore.loop [unicode.ToLower c] rest)) val
        exact ⟨q, by rw [doWhere_default w (c :: rest) _ val hkey hmark2 hval rfl hdir, hq]⟩

/-- Witness for C12: the key `#sum` is skipped. -/
theorem doWhere_trichotomy_witness :
    (NewWrapDB 100 0).doWhere (lit "#sum") (GoValue.int 1) = .ok (NewWrapDB 100 0) :=
  (doWhere_trichotomy (NewWrapDB 100 0) (lit "#sum") (GoValue.int 1)).1 (Or.inr (Or.inl rfl))

/-! ## Rejected order key -/

theorem tryOrder_rejected (w : WrapDB) (k : GoString) (hk : w.orderKey = some k)
    (hbad : isInjectionReg.MatchString k = true) : w.tryOrder = w := by
  unfold WrapDB.tryOrder
  simp [hk, hbad]

/-- The calls of `tryPage` followed by the row `Scan` contain no `Order`. -/
theorem page_scan_log (w : WrapDB) :
    ∃ pc, ((w.tryPage).call DbCall.Scan).Db = w.Db ++ (pc ++ [DbCall.Scan]) ∧
      ∀ v, DbCall.Order v ∉ pc := by
  have hdb : ((w.tryPage).call DbCall.Scan).Db = w.tryPage.Db ++ [DbCall.Scan] := rfl
  rw [hdb, tryPage_Db]
  refine ⟨(if w.effectivePagesize > 0 then [DbCall.Limit w.effectivePagesize] else []) ++
      (match w.page with
        | some p => [DbCall.Offset (wrapInt (w.effectivePagesize * wrapInt (p - 1)))]
        | none => []), by simp only [List.append_assoc], ?_⟩
  intro v hv
  rcases List.mem_append.1 hv with hv | hv
  · split_ifs at hv <;> simp at hv
  · cases hp : w.page with
    | none => simp [hp] at hv
    | some p => simp [hp] at hv

theorem call_call_Db (w : WrapDB) (a b : DbCall) : ((w.call a).call b).Db = w.Db ++ [a, b] := by
  simp [WrapDB.call]

/-- The sum phase of `QueryWithMap` issues nothing, or one `Select` and its `Scan`. -/
theorem sumPhase_Db (w : WrapDB) (db : Database) (search : GoMap) (gr : GeneralResult) :
    (w.sumPhase db search gr).1.Db = w.Db ∨
      ∃ q, (w.sumPhase db search gr).1.Db = w.Db ++ [DbCall.Select q, DbCall.Scan] := by
  unfold WrapDB.sumPhase
  simp only
  split
  · exact Or.inl rfl
  · exact Or.inl rfl
  · split_ifs
    · split
      · exact Or.inr ⟨_, call_call_Db _ _ _⟩
      · exact Or.inr ⟨_, call_call_Db _ _ _⟩
    · exact Or.inl rfl
    · exact Or.inl rfl

/-- The sum phase of `QueryWithStruct` issues nothing, or one `Select` and its `Scan`. -/
theorem sumPhaseStruct_Db (w : WrapDB) (db : Database) (sum : reflect.Value) (r : StructResult) :
    (w.sumPhaseStruct db sum r).1.Db = w.Db ∨
      ∃ q, (w.sumPhaseStruct db sum r).1.Db = w.Db ++ [DbCall.Select q, DbCall.Scan] := by
  unfold WrapDB.sumPhaseStruct
  split
  · exact Or.inl rfl
  · exact Or.inl rfl
  · split_ifs
    · split
      · exact Or.inl rfl
      · split_ifs
        · dsimp only
          split
          · exact Or.inr ⟨_, call_call_Db _ _ _⟩
          · exact Or.inr ⟨_, call_call_Db _ _ _⟩
        · exact Or.inl rfl
    · exact Or.inl rfl
  · exact Or.inl rfl
  · exact Or.inl rfl

theorem fetch_calls_facts (pc extra : List DbCall) (hno : ∀ v, DbCall.Order v ∉ pc)
    (hextra : extra = [] ∨ ∃ q, extra = [DbCall.Select q, DbCall.Scan]) :
    DbCall.Scan ∈ [DbCall.Count] ++ (pc ++ [DbCall.Scan]) ++ extra ∧
      ∀ v, DbCall.Order v ∉ [DbCall.Count] ++ (pc ++ [DbCall.Scan]) ++ extra := by
  constructor
  · simp
  · intro v hv
    simp only [List.mem_append, List.mem_singleton, reduceCtorEq, false_or, or_false] at hv
    rcases hv with hv | hv
    · exact hno v hv
    · rcases hextra with h | ⟨q, h⟩ <;> simp [h] at hv

/-- C13 (counterexample). In map mode, with the order key `id;drop table x`, which
fails the field guard, and one matching row, the call returns the nil error:
the row fetch runs after `Count` and `Limit`, without any `Order`. -/
theorem rejected_orderKey_returns_no_error :
    isInjectionReg.MatchString (lit "id;drop table x") = true ∧
    (NewWrapDB 100 0).QueryWithMap oneRowDatabase
        [(lit "orderKey", GoValue.str (lit "id;drop table x"))] =
      ({ NewWrapDB 100 0 with
          Db := [DbCall.Count, DbCall.Limit 100, DbCall.Scan]
          pagesize := some 100
          orderKey := some (lit "id;drop table x") },
        Outcome.returned
          { Total := 1, List := some [[(lit "age", GoValue.int 30)]], Sum := [] } none) :=
  ⟨rfl, rfl⟩

/-- C13 (amended). For every query with at least one matching row whose accumulated
order key fails the field guard, the ordering is dropped and the call goes on:
no `Order` call is issued and the row `Scan` is issued, in `QueryWithMap` and in
`QueryWithStruct` (with a list and a total); when the scan succeeds and no sum
phase follows, the call returns the nil error. -/
theorem rejected_orderKey_is_dropped (w1 : WrapDB) (k : GoString) (db : Database)
    (hk : w1.orderKey = some k) (hbad : isInjectionReg.MatchString k = true) :
    (∀ (w : WrapDB) (search : GoMap) (total : Int),
      w.doWhereAll search = (w1, none) →
      db.count (w1.call DbCall.Count).Db = .ok total → 0 < total →
      ∃ calls, (w.QueryWithMap db search).1.Db = w1.Db ++ calls ∧ DbCall.Scan ∈ calls ∧
        (∀ v, DbCall.Order v ∉ calls) ∧
        (∀ rows, db.scanList (((w1.call DbCall.Count).tryPage).call DbCall.Scan).Db = .ok rows →
          w1.page ≠ some 1 →
          ∃ gr, (w.QueryWithMap db search).2 = Outcome.returned gr none)) ∧
    (∀ (w : WrapDB) (search : Option reflect.Value) (l0 : Option (List GoMap))
        (sum : Option reflect.Value) (t0 total : Int),
      w.walkSearch search = (w1, none) →
      db.count (w1.call DbCall.Count).Db = .ok total → 0 < total →
      ∃ calls, (w.QueryWithStruct db search (some l0) sum (some t0)).1.Db = w1.Db ++ calls ∧
        DbCall.Scan ∈ calls ∧ (∀ v, DbCall.Order v ∉ calls) ∧
        (∀ rows, db.scanList (((w1.call DbCall.Count).tryPage).call DbCall.Scan).Db = .ok rows →
          (w1.page ≠ some 1 ∨ sum = none) →
          ∃ r, (w.QueryWithStruct db search (some l0) sum (some t0)).2 =
            StructOutcome.returned r ∧ r.err = none)) := by
  have htry : (w1.call DbCall.Count).tryOrder = w1.call DbCall.Count :=
    tryOrder_rejected (w1.call DbCall.Count) k hk hbad
  obtain ⟨pc, hpc, hno⟩ := page_scan_log (w1.call DbCall.Count)
  have hcount : (w1.call DbCall.Count).Db = w1.Db ++ [DbCall.Count] := rfl
  have hpage : (((w1.call DbCall.Count).tryPage).call DbCall.Scan).page = w1.page := by
    show (WrapDB.tryPage (w1.call DbCall.Count)).page = w1.page
    rw [tryPage_page]
    rfl
  have hbase : (((w1.call DbCall.Count).tryPage).call DbCall.Scan).Db =
      w1.Db ++ ([DbCall.Count] ++ (pc ++ [DbCall.Scan]) ++ []) := by
    rw [hpc, hcount]
    simp only [List.append_assoc, List.append_nil]
  have hext : ∀ q, (((w1.call DbCall.Count).tryPage).call DbCall.Scan).Db ++
      [DbCall.Select q, DbCall.Scan] =
      w1.Db ++ ([DbCall.Count] ++ (pc ++ [DbCall.Scan]) ++ [DbCall.Select q, DbCall.Scan]) := by
    intro q
    rw [hpc, hcount]
    simp only [List.append_assoc]
  have hf0 := fetch_calls_facts pc [] hno (Or.inl rfl)
  have hf1 := fun q => fetch_calls_facts pc [DbCall.Select q, DbCall.Scan] hno (Or.inr ⟨q, rfl⟩)
  constructor
  · intro w search total hw hc ht
    have ht2 : total > 0 := ht
    cases hs : db.scanList (((w1.call DbCall.Count).tryPage).call DbCall.Scan).Db with
    | error e =>
      refine ⟨_, ?_, hf0.1, hf0.2, ?_⟩
      · simp only [WrapDB.QueryWithMap, hw, hc, ht2, htry, hs, if_true]
        exact hbase
      · intro rows hrows
        cases hrows
    | ok rows =>
      by_cases hp : w1.page = some 1
      · have hp2 : (((w1.call DbCall.Count).tryPage).call DbCall.Scan).page = some 1 := by
          rw [hpage]; exact hp
        rcases sumPhase_Db (((w1.call DbCall.Count).tryPage).call DbCall.Scan) db search
          (if rows.length > 0 then
            { Total := total, List := some (rows.map projectRow), Sum := [] }
           else { Total := total, List := some rows, Sum := [] }) with h | ⟨q, h⟩
        · refine ⟨_, ?_, hf0.1, hf0.2, fun _ _ hne => absurd hp hne⟩
          simp only [WrapDB.QueryWithMap, hw, hc, ht2, htry, hs, if_true, hp2]
          rw [h]
          exact hbase
        · refine ⟨_, ?_, (hf1 q).1, (hf1 q).2, fun _ _ hne => absurd hp hne⟩
          simp only [WrapDB.QueryWithMap, hw, hc, ht2, htry, hs, if_true, hp2]
          rw [h]
          exact hext q
      · have hp2 : ¬ (((w1.call DbCall.Count).tryPage).call DbCall.Scan).page = some 1 := by
          rw [hpage]; exact hp
        refine ⟨_, ?_, hf0.1, hf0.2, ?_⟩
        · simp only [WrapDB.QueryWithMap, hw, hc, ht2, htry, hs, if_true, hp2, if_false]
          exact hbase
        · intro rows2 _ _
          simp only [WrapDB.QueryWithMap, hw, hc, ht2, htry, hs, if_true, hp2, if_false]
          exact ⟨_, rfl⟩
  · intro w search l0 sum t0 total hw hc ht
    have ht2 : decide (total > 0) = true := by simpa using ht
    cases hs : db.scanList (((w1.call DbCall.Count).tryPage).call DbCall.Scan).Db with
    | error e =>
      refine ⟨_, ?_, hf0.1, hf0.2, ?_⟩
      · simp only [WrapDB.QueryWithStruct, hw, hc, ht2, htry, hs, if_true]
        exact hbase
      · intro rows hrows
        cases hrows
    | ok rows =>
      cases sum with
      | none =>
        refine ⟨_, ?_, hf0.1, hf0.2, ?_⟩
        · simp only [WrapDB.QueryWithStruct, hw, hc, ht2, htry, hs, if_true]
          exact hbase
        · intro rows2 _ _
          simp only [WrapDB.QueryWithStruct, hw, hc, ht2, htry, hs, if_true]
          exact ⟨_, rfl, rfl⟩
      | some sv =>
        by_cases hp : w1.page = some 1
        · have hp2 : (((w1.call DbCall.Count).tryPage).call DbCall.Scan).page = some 1 := by
            rw [hpage]; exact hp
          rcases sumPhaseStruct_Db (((w1.call DbCall.Count).tryPage).call DbCall.Scan) db sv
            { list := some (some rows), sum := none, total := some total, err := none }
            with h | ⟨q, h⟩
          · refine ⟨_, ?_, hf0.1, hf0.2, ?_⟩
            · simp only [WrapDB.QueryWithStruct, hw, hc, ht2, htry, hs, if_true, hp2]
              rw [h]
              exact hbase
            · rintro _ _ (hne | hne)
              · exact absurd hp hne
              · cases hne
          · refine ⟨_, ?_, (hf1 q).1, (hf1 q).2, ?_⟩
            · simp only [WrapDB.QueryWithStruct, hw, hc, ht2, htry, hs, if_true, hp2]
              rw [h]
              exact hext q
            · rintro _ _ (hne | hne)
              · exact absurd hp hne
              · cases hne
        · have hp2 : ¬ (((w1.call DbCall.Count).tryPage).call DbCall.Scan).page = some 1 := by
            rw [hpage]; exact hp
          refine ⟨_, ?_, hf0.1, hf0.2, ?_⟩
          · simp only [WrapDB.QueryWithStruct, hw, hc, ht2, htry, hs, if_true, hp2, if_false]
            exact hbase
          · intro rows2 _ _
            simp only [WrapDB.QueryWithStruct, hw, hc, ht2, htry, hs, if_true, hp2, if_false]
            exact ⟨_, rfl, rfl⟩

/-- Witness for C13 (amended): the order key `id;drop table x` in map mode. -/
theorem rejected_orderKey_is_dropped_witness :
    ∃ calls, ((NewWrapDB 100 0).QueryWithMap oneRowDatabase
        [(lit "orderKey", GoValue.str (lit "id;drop table x"))]).1.Db = [] ++ calls ∧
      DbCall.Scan ∈ calls ∧ ∀ v, DbCall.Order v ∉ calls := by
  obtain ⟨calls, h1, h2, h3, _⟩ :=
    (rejected_orderKey_is_dropped
      { NewWrapDB 100 0 with orderKey := some (lit "id;drop table x") }
      (lit "id;drop table x") oneRowDatabase rfl rfl).1
      (NewWrapDB 100 0) [(lit "orderKey", GoValue.str (lit "id;drop table x"))] 1 rfl rfl
      (by decide)
  exact ⟨calls, h1, h2, h3⟩

/-! ## Sum phase condition -/

theorem encodeRune_ne_nil (r : Nat) : utf8.EncodeRune r ≠ [] := by
  unfold utf8.EncodeRune
  split_ifs <;> simp

theorem camelCaseToUnderscore_ne_nil {s name : GoString}
    (h : camelCaseToUnderscore s = .ok name) : name ≠ [] := by
  cases s with
  | nil => simp [camelCaseToUnderscore] at h
  | cons b rest =>
    simp only [camelCaseToUnderscore, camelLoop_eq, Except.ok.injEq] at h
    subst h
    simp [runesToString, encodeRune_ne_nil]

/-- When the loop over the sum fields ends normally, every name passed the guard
and was non-empty, and one column was collected per name. -/
theorem collectSumFields_fields (l : List GoString) :
    ∀ (acc fs : List GoString), collectSumFields acc l = SumFieldsResult.fields fs →
      (∀ x ∈ l, isInjectionReg.MatchString x = false ∧ x ≠ []) ∧
        fs.length = acc.length + l.length := by
  induction l with
  | nil =>
    intro acc fs h
    simp only [collectSumFields, SumFieldsResult.fields.injEq] at h
    subst h
    simp
  | cons x l ih =>
    intro acc fs h
    unfold collectSumFields at h
    by_cases hx : isInjectionReg.MatchString x = true
    · simp [hx] at h
    · rw [if_neg hx] at h
      cases hc : camelCaseToUnderscore x with
      | error p => simp [hc] at h
      | ok name =>
        simp only [hc] at h
        obtain ⟨hall, hlen⟩ := ih _ _ h
        have hxne : x ≠ [] := by
          rintro rfl
          simp [camelCaseToUnderscore] at hc
        refine ⟨?_, by simp only [List.length_append, List.length_cons, List.length_nil] at hlen ⊢; omega⟩
        intro y hy
        rcases List.mem_cons.1 hy with rfl | hy
        · exact ⟨by simpa using hx, hxne⟩
        · exact hall y hy

/-- When every name passes the guard and is non-empty, the loop over the sum
fields collects one non-empty column per name. -/
theorem collectSumFields_valid (l : List GoString)
    (hl : ∀ x ∈ l, isInjectionReg.MatchString x = false ∧ x ≠ []) :
    ∀ acc : List GoString, (∀ f ∈ acc, f ≠ []) →
      ∃ fs, collectSumFields acc l = SumFieldsResult.fields fs ∧
        fs.length = acc.length + l.length ∧ ∀ f ∈ fs, f ≠ [] := by
  induction l with
  | nil => intro acc hacc; exact ⟨acc, rfl, by simp, hacc⟩
  | cons x l ih =>
    intro acc hacc
    obtain ⟨hx, hxne⟩ := hl x (List.mem_cons_self x l)
    cases x with
    | nil => exact absurd rfl hxne
    | cons b bs =>
      have hname : camelCaseToUnderscore (b :: bs) =
          .ok (runesToString (camelCaseToUnderscore.loop [unicode.ToLower b] bs)) := rfl
      have hne := camelCaseToUnderscore_ne_nil hname
      obtain ⟨fs, hfs, hlen, hall⟩ := ih (fun y hy => hl y (List.mem_cons_of_mem _ hy))
        (acc ++ [runesToString (camelCaseToUnderscore.loop [unicode.ToLower b] bs)])
        (by
          intro f hf
          rcases List.mem_append.1 hf with hf | hf
          · exact hacc f hf
          · rw [List.mem_singleton.1 hf]; exact hne)
      refine ⟨fs, ?_, ?_, hall⟩
      · simp only [collectSumFields, hx, Bool.false_eq_true, if_false, hname]
        exact hfs
      · simp only [List.length_append, List.length_cons, List.length_nil] at hlen ⊢
        omega

theorem sumText_foldl_length (fs : List GoString) :
    ∀ sb : GoString,
      sb.length ≤ (fs.foldl
        (fun sb field => sb ++ (lit "sum(`" ++ field ++ lit "`) as `" ++ field ++ lit "`, "))
        sb).length := by
  induction fs with
  | nil => intro sb; exact le_refl _
  | cons f fs ih =>
    intro sb
    simp only [List.foldl_cons]
    refine le_trans ?_ (ih _)
    simp

/-- The text built for a non-empty list of non-empty columns is longer than 16. -/
theorem sumSelectText_length (fs : List GoString) (hne : fs ≠ []) (hall : ∀ f ∈ fs, f ≠ []) :
    (sumSelectText fs).length > 16 := by
  cases fs with
  | nil => exact absurd rfl hne
  | cons f fs =>
    have hf : f ≠ [] := hall f (List.mem_cons_self f fs)
    have hflen : 0 < f.length := List.length_pos.2 hf
    have h := sumText_foldl_length fs
      ([] ++ (lit "sum(`" ++ f ++ lit "`) as `" ++ f ++ lit "`, "))
    have h1 : (lit "sum(`").length = 5 := rfl
    have h2 : (lit "`) as `").length = 7 := rfl
    have h3 : (lit "`, ").length = 3 := rfl
    simp only [List.nil_append, List.length_append, h1, h2, h3] at h
    simp only [sumSelectText, List.foldl_cons, List.nil_append]
    omega

/-- With a non-empty list of names that all pass the guard and are non-empty, the
sum phase issues the `Select` and its `Scan`. -/
theorem sumPhase_valid (w : WrapDB) (db : Database) (search : GoMap) (gr : GeneralResult)
    (l : List GoString) (hsum : GoMap.index search SumFieldsKey = GoValue.strings (some l))
    (hne : l ≠ []) (hl : ∀ x ∈ l, isInjectionReg.MatchString x = false ∧ x ≠ []) :
    ∃ q, (w.sumPhase db search gr).1.Db = w.Db ++ [DbCall.Select q, DbCall.Scan] := by
  obtain ⟨fs, hfs, hlen, hall⟩ := collectSumFields_valid l hl [] (by simp)
  have hpos : fs.length > 0 := by
    have : 0 < l.length := List.length_pos.2 hne
    simp only [List.length_nil] at hlen
    omega
  have hfsne : fs ≠ [] := List.length_pos.1 hpos
  have hsb := sumSelectText_length fs hfsne hall
  unfold WrapDB.sumPhase
  simp only [hsum, hfs, hpos, hsb, if_true]
  split
  · exact ⟨_, call_call_Db _ _ _⟩
  · exact ⟨_, call_call_Db _ _ _⟩

/-- Without such a list the sum phase issues no call. -/
theorem sumPhase_no_select (w : WrapDB) (db : Database) (search : GoMap) (gr : GeneralResult)
    (h : ¬ ∃ l, GoMap.index search SumFieldsKey = GoValue.strings (some l) ∧ l ≠ [] ∧
      ∀ x ∈ l, isInjectionReg.MatchString x = false ∧ x ≠ []) :
    (w.sumPhase db search gr).1 = w := by
  unfold WrapDB.sumPhase
  cases hidx : GoMap.index search SumFieldsKey with
  | strings ol =>
    cases ol with
    | none => simp
    | some l =>
      simp only
      cases hc : collectSumFields [] l with
      | fields fs =>
        obtain ⟨hall, hlen⟩ := collectSumFields_fields l [] fs hc
        by_cases hpos : fs.length > 0
        · exfalso
          apply h
          refine ⟨l, hidx, ?_, hall⟩
          rintro rfl
          simp only [List.length_nil, Nat.add_zero] at hlen
          omega
        · simp [hpos]
      | illegal x => rfl
      | panicked p => rfl
  | nil => rfl
  | int n => rfl
  | uint n => rfl
  | float q => rfl
  | str s => rfl
  | other t => rfl

/-- With a nil or empty list under `#sum` the sum phase returns the nil error and
leaves the result as it is. -/
theorem sumPhase_empty (w : WrapDB) (db : Database) (search : GoMap) (gr : GeneralResult)
    (h : GoMap.index search SumFieldsKey = GoValue.strings none ∨
      GoMap.index search SumFieldsKey = GoValue.strings (some [])) :
    w.sumPhase db search gr = (w, Outcome.returned gr none) := by
  unfold WrapDB.sumPhase
  rcases h with h | h <;> simp [h, collectSumFields]

/-- C17 (counterexample). With page 1 and one matching row: the non-empty sum-field
list `["amount2"]` leads to no `Select` but to the injection error, because the
name fails the guard; and with no `#sum` key at all the call panics on the type
assertion. -/
theorem sum_select_needs_valid_names :
    (NewWrapDB 100 0).QueryWithMap oneRowDatabase
        [(lit "page", GoValue.int 1), (SumFieldsKey, GoValue.strings (some [lit "amount2"]))] =
      ({ NewWrapDB 100 0 with
          Db := [DbCall.Count, DbCall.Limit 100, DbCall.Offset 0, DbCall.Scan]
          page := some 1
          pagesize := some 100 },
        Outcome.returned
          { Total := 1, List := some [[(lit "age", GoValue.int 30)]], Sum := [] }
          (some (GoError.illegalSumField (lit "amount2")))) ∧
    ((NewWrapDB 100 0).QueryWithMap oneRowDatabase [(lit "page", GoValue.int 1)]).2 =
      Outcome.panicked Panic.typeAssertion :=
  ⟨rfl, rfl⟩

/-- C17 (amended). For every `QueryWithMap` call whose count and row scan succeed
with a positive count: a sum `Select` is issued if and only if the page is 1 and
a non-empty list is supplied under `#sum` whose names all pass the field guard
and are non-empty. When the page is unset or different from 1, or the supplied
list is nil or empty, the call returns the nil error with an empty `Sum` and
issues nothing after the row scan. -/
theorem sum_phase_condition (w w1 : WrapDB) (db : Database) (search : GoMap) (total : Int)
    (rows : List GoMap) (hw : w.doWhereAll search = (w1, none))
    (hc : db.count (w1.call DbCall.Count).Db = .ok total) (ht : 0 < total)
    (hs : db.scanList (((w1.call DbCall.Count).tryOrder.tryPage).call DbCall.Scan).Db =
      .ok rows) :
    (∃ calls, (w.QueryWithMap db search).1.Db =
        (((w1.call DbCall.Count).tryOrder.tryPage).call DbCall.Scan).Db ++ calls ∧
      ((∃ q, DbCall.Select q ∈ calls) ↔
        (w1.page = some 1 ∧
          ∃ l, GoMap.index search SumFieldsKey = GoValue.strings (some l) ∧ l ≠ [] ∧
            ∀ x ∈ l, isInjectionReg.MatchString x = false ∧ x ≠ []))) ∧
    ((w1.page ≠ some 1 ∨ GoMap.index search SumFieldsKey = GoValue.strings none ∨
        GoMap.index search SumFieldsKey = GoValue.strings (some [])) →
      ∃ gr, (w.QueryWithMap db search).2 = Outcome.returned gr none ∧ gr.Sum = [] ∧
        (w.QueryWithMap db search).1.Db =
          (((w1.call DbCall.Count).tryOrder.tryPage).call DbCall.Scan).Db) := by
  have ht2 : total > 0 := ht
  have hpage : (((w1.call DbCall.Count).tryOrder.tryPage).call DbCall.Scan).page = w1.page := by
    show (WrapDB.tryPage (WrapDB.tryOrder (w1.call DbCall.Count))).page = w1.page
    rw [tryPage_page, tryOrder_page]
    rfl
  by_cases hp : w1.page = some 1
  · have hp2 : (((w1.call DbCall.Count).tryOrder.tryPage).call DbCall.Scan).page = some 1 := by
      rw [hpage]; exact hp
    have hq : w.QueryWithMap db search =
        (((w1.call DbCall.Count).tryOrder.tryPage).call DbCall.Scan).sumPhase db search
          (if rows.length > 0 then
            { Total := total, List := some (rows.map projectRow), Sum := [] }
           else { Total := total, List := some rows, Sum := [] }) := by
      simp only [WrapDB.QueryWithMap, hw, hc, ht2, hs, if_true, hp2]
    rw [hq]
    constructor
    · by_cases hv : ∃ l, GoMap.index search SumFieldsKey = GoValue.strings (some l) ∧ l ≠ [] ∧
          ∀ x ∈ l, isInjectionReg.MatchString x = false ∧ x ≠ []
      · obtain ⟨l, hl1, hl2, hl3⟩ := hv
        obtain ⟨q, hq2⟩ := sumPhase_valid
          (((w1.call DbCall.Count).tryOrder.tryPage).call DbCall.Scan) db search
          (if rows.length > 0 then
            { Total := total, List := some (rows.map projectRow), Sum := [] }
           else { Total := total, List := some rows, Sum := [] }) l hl1 hl2 hl3
        refine ⟨[DbCall.Select q, DbCall.Scan], hq2, ?_⟩
        exact ⟨fun _ => ⟨hp, l, hl1, hl2, hl3⟩, fun _ => ⟨q, by simp⟩⟩
      · refine ⟨[], ?_, ?_⟩
        · rw [sumPhase_no_select _ db search _ hv]
          simp
        · constructor
          · rintro ⟨q, hq3⟩
            simp at hq3
          · rintro ⟨_, hv2⟩
            exact absurd hv2 hv
    · rintro (h | h | h)
      · exact absurd hp h
      · rw [sumPhase_empty _ db search _ (Or.inl h)]
        refine ⟨_, rfl, ?_, rfl⟩
        split_ifs <;> rfl
      · rw [sumPhase_empty _ db search _ (Or.inr h)]
        refine ⟨_, rfl, ?_, rfl⟩
        split_ifs <;> rfl
  · have hp2 : ¬ (((w1.call DbCall.Count).tryOrder.tryPage).call DbCall.Scan).page = some 1 := by
      rw [hpage]; exact hp
    have hq : w.QueryWithMap db search =
        ((((w1.call DbCall.Count).tryOrder.tryPage).call DbCall.Scan),
          Outcome.returned
            (if rows.length > 0 then
              { Total := total, List := some (rows.map projectRow), Sum := [] }
             else { Total := total, List := some rows, Sum := [] }) none) := by
      simp only [WrapDB.QueryWithMap, hw, hc, ht2, hs, if_true, hp2, if_false]
    rw [hq]
    constructor
    · refine ⟨[], by simp, ?_⟩
      constructor
      · rintro ⟨q, hq3⟩
        simp at hq3
      · rintro ⟨hp3, _⟩
        exact absurd hp3 hp
    · intro _
      refine ⟨_, rfl, ?_, rfl⟩
      split_ifs <;> rfl

/-- Witness for C17 (amended): page 1 with the sum field `amount` on a database with
one matching row issues the sum `Select`. -/
theorem sum_phase_condition_witness :
    ∃ calls, ((NewWrapDB 100 0).QueryWithMap oneRowDatabase
        [(lit "page", GoValue.int 1), (SumFieldsKey, GoValue.strings (some [lit "amount"]))]).1.Db
        = [DbCall.Count, DbCall.Limit 100, DbCall.Offset 0, DbCall.Scan] ++ calls ∧
      ∃ q, DbCall.Select q ∈ calls := by
  obtain ⟨calls, hdb, hiff⟩ :=
    (sum_phase_condition (NewWrapDB 100 0) { NewWrapDB 100 0 with page := some 1 }
      oneRowDatabase
      [(lit "page", GoValue.int 1), (SumFieldsKey, GoValue.strings (some [lit "amount"]))]
      1 [[(lit "age", GoValue.int 30)]] rfl rfl (by decide) rfl).1
  exact ⟨calls, hdb, hiff.2 ⟨rfl, [lit "amount"], rfl, by simp, by decide⟩⟩

end Gormx


